import Mathlib

/-!
# xml-image-dmp: a shallow embedding of `main.go`

The tool reads XML files, selects nodes with an XPath expression, decodes the
base64 payload found in one attribute of every node and writes it to a file
named after another attribute, inside a directory named after the input file.

Conventions of the embedding.

* A Go `string` is a `List Char` (`Str`).  Every index computed by the program
  is the index of an ASCII character (`'.'`, `'/'`, the end of the scheme
  prefix), so positions in characters and positions in bytes select the same
  cut of the string.
* A `[]byte` is a `List Nat`.
* The Go `error` is `Option Str`: `none` is `nil`.
* The file system is explicit state (`FS`).  What the operating system and the
  XML library answer is a parameter (`Env`); the methods of the Go library
  that sit between the program and the operating system (`(*os.File).Write`,
  `SelectAttrValue` of `etree`) are definitions.
* `log.Fatal` and a run-time panic both stop the program; they are the two
  values of `Halt`.  Ordinary log lines are not part of the state.
-/

namespace XmlImageDmp

/-- A Go string. -/
abbrev Str := List Char

/-! ## Library functions used by `extractBaseName` -/

/-- Scan of `strings.LastIndex` for a one-character pattern: `i` is the index
of the head of the list, `last` the last index found so far. -/
def lastIndexFrom (c : Char) : Str → Nat → Int → Int
  | [], _, last => last
  | x :: xs, i, last => lastIndexFrom c xs (i + 1) (if x = c then (i : Int) else last)

/-- Go `strings.LastIndex(s, c)` for a one-character `c`: the index of the last
occurrence, or `-1`. -/
def LastIndex (s : Str) (c : Char) : Int :=
  lastIndexFrom c s 0 (-1)

/-- The loop of `path.Base` that strips trailing slashes. -/
def stripTrailingSlashes (p : Str) : Str :=
  (p.reverse.dropWhile (fun c => c = '/')).reverse

/-- Go `path.Base`: the last element of the path.  Trailing slashes are removed
first; the empty path gives `"."`, a path of slashes only gives `"/"`. -/
def Base (path : Str) : Str :=
  if path = [] then ['.']
  else
    let p := stripTrailingSlashes path
    let p := if 0 ≤ LastIndex p '/' then p.drop ((LastIndex p '/').toNat + 1) else p
    if p = [] then ['/'] else p

/-- Go slice expression `s[:hi]` on a string: a run-time panic (`none`) unless
`0 ≤ hi ≤ len s`. -/
def sliceTo (s : Str) (hi : Int) : Option Str :=
  if 0 ≤ hi ∧ hi ≤ (s.length : Int) then some (s.take hi.toNat) else none

/-- The function `extractBaseName` of `main.go`: `base[:strings.LastIndex(base, ".")]` for
`base := path.Base(filename)`.  `none` is the slice panic. -/
def extractBaseName (filename : Str) : Option Str :=
  let base := Base filename
  let lastIndex := LastIndex base '.'
  sliceTo base lastIndex

/-! ## The scheme stripper: `regexp` and `excludeScheme` -/

/-- The fragment of Go regular expressions (`regexp/syntax`) that the pattern
of `excludeScheme` uses. -/
inductive Re where
  /-- A literal string. -/
  | str (s : Str)
  /-- The class `\w`, that is `[0-9A-Za-z_]`. -/
  | word
  /-- Concatenation. -/
  | seq (a b : Re)
  /-- Greedy `a+`. -/
  | plus (a : Re)
  /-- Greedy `a?`. -/
  | opt (a : Re)

/-- The class `\w` of Go regular expressions: ASCII letters, digits and `_`. -/
def isWord (c : Char) : Bool :=
  c.isAlphanum || c == '_'

/-- Greedy iteration of a matcher `f`, one or more times.  Each further round
is tried before stopping (greedy), and only after a round that consumed input.
The first argument bounds the number of further rounds; `plusRun f s.length s`
never runs out, since every further round starts on a shorter input. -/
def plusRun (f : Str → List Str) : Nat → Str → List Str
  | 0, s => f s
  | n + 1, s =>
    (f s).flatMap (fun s1 => (if s1.length < s.length then plusRun f n s1 else []) ++ [s1])

/-- All the ways in which `r` matches a prefix of the input, each given as the
input left after the match, in the order in which a backtracking (leftmost-first)
matcher finds them. -/
def Re.run : Re → Str → List Str
  | .str p, s => if p.isPrefixOf s then [s.drop p.length] else []
  | .word, s =>
    match s with
    | c :: cs => if isWord c then [cs] else []
    | [] => []
  | .seq a b, s => (a.run s).flatMap (fun s1 => b.run s1)
  | .plus a, s => plusRun (fun s1 => a.run s1) s.length s
  | .opt a, s => a.run s ++ [s]

/-- The part `\w+` of the pattern. -/
def wordsRe : Re := .plus .word

/-- The part `(?:\w+\/\w+)` of the pattern. -/
def mediaRe : Re := .seq wordsRe (.seq (.str "/".toList) wordsRe)

/-- The part `(?:\w+=\w+)` of the pattern. -/
def paramRe : Re := .seq wordsRe (.seq (.str "=".toList) wordsRe)

/-- The part `(?:;(?:\w+=\w+)+)?` of the pattern. -/
def paramsRe : Re := .opt (.seq (.str ";".toList) (.plus paramRe))

/-- The pattern of `excludeScheme` after its leading `^`:
`data:(?:\w+\/\w+)(?:;(?:\w+=\w+)+)?;base64,`. -/
def schemeRe : Re :=
  .seq (.str "data:".toList) (.seq mediaRe (.seq paramsRe (.str ";base64,".toList)))

/-- Go `r.FindStringIndex(data)` for the pattern of `excludeScheme`.  The pattern
starts with `^`, so a match can only start at index 0; the match reported is the
first one a leftmost-first matcher finds.  `none` is the `nil` result. -/
def FindStringIndex (data : Str) : Option (Nat × Nat) :=
  match schemeRe.run data with
  | [] => none
  | rest :: _ => some (0, data.length - rest.length)

/-- The function `excludeScheme` of `main.go`. -/
def excludeScheme (data : Str) : Str :=
  match FindStringIndex data with
  | none => data
  | some locs => data.drop locs.2

/-! ## The base64 decoder (`encoding/base64`, `StdEncoding`) -/

/-- The alphabet of `base64.StdEncoding`. -/
def encodeStd : Str :=
  "ABCDEFGHIJKLMNOPQRSTUVWXYZabcdefghijklmnopqrstuvwxyz0123456789+/".toList

/-- The decode map of `StdEncoding`: the index of the character in the
alphabet, `none` for the entries `0xff`. -/
def decodeMap (c : Char) : Option Nat :=
  let i := encodeStd.indexOf c
  if i < 64 then some i else none

/-- The end of `decodeQuantum`: the sextets `dbuf` (missing ones count as 0)
are packed into 24 bits, of which the first `dlen - 1` bytes are output. -/
def quantumBytes (dbuf : List Nat) (dlen : Nat) : List Nat :=
  let val := dbuf.getD 0 0 * 262144 + dbuf.getD 1 0 * 4096 + dbuf.getD 2 0 * 64 + dbuf.getD 3 0
  [val / 65536 % 256, val / 256 % 256, val % 256].take (dlen - 1)

/-- The loops of `decodeQuantum` that skip `'\n'` and `'\r'`. -/
def skipNewlines : Str → Str
  | [] => []
  | c :: cs => if c = '\n' ∨ c = '\r' then skipNewlines cs else c :: cs

/-- The error value `CorruptInputError` of `encoding/base64`. -/
def corruptInput : Option Str := some "illegal base64 data".toList

/-- After the padding of a quantum of `j` sextets: newlines are skipped, and
anything left is trailing garbage (an error, reported with the bytes of the
quantum already output). -/
def decodePadded (acc dbuf : List Nat) (j : Nat) (rest : Str) : List Nat × Option Str :=
  (acc ++ quantumBytes dbuf j, if skipNewlines rest = [] then none else corruptInput)

/-- Go `Encoding.Decode` for `StdEncoding` (padded, not strict), read character by
character: the loop over `decodeQuantum` and the loop inside it, as one
recursion.  `j` is the number of sextets of the current quantum read so far
(`dbuf`), `acc` the bytes output so far (`dst[:n]`).  The result is `n` bytes
and the error. -/
def decodeLoop : Str → Nat → List Nat → List Nat → List Nat × Option Str
  | [], j, _, acc =>
    -- `len(src) == si`: fine between quanta, corrupt inside one (padding is required)
    if j = 0 then (acc, none) else (acc, corruptInput)
  | c :: rest, j, dbuf, acc =>
    match decodeMap c with
    | some v =>
      if j = 3 then decodeLoop rest 0 [] (acc ++ quantumBytes (dbuf ++ [v]) 4)
      else decodeLoop rest (j + 1) (dbuf ++ [v]) acc
    | none =>
      if c = '\n' ∨ c = '\r' then decodeLoop rest j dbuf acc
      else if c ≠ '=' then (acc, corruptInput)
      else if j = 0 ∨ j = 1 then (acc, corruptInput)
      else if j = 2 then
        -- `"=="` is expected, the first `'='` is consumed
        match skipNewlines rest with
        | [] => (acc, corruptInput)
        | c2 :: rest2 => if c2 ≠ '=' then (acc, corruptInput) else decodePadded acc dbuf j rest2
      else decodePadded acc dbuf j rest

/-- Go `base64.StdEncoding.DecodeString`: `dbuf[:n], err`.  On an error the
bytes decoded before it are still returned. -/
def DecodeString (s : Str) : List Nat × Option Str :=
  decodeLoop s 0 [] []

/-- Standard padded base64 encoding (RFC 4648, section 4), the notion of
"valid padded standard base64 encoding a byte sequence" of the specification.
It is not part of `main.go`; the decoder is compared with it. -/
def encode : List Nat → Str
  | [] => []
  | [a] => [encodeStd.getD (a / 4) 'A', encodeStd.getD (a % 4 * 16) 'A', '=', '=']
  | [a, b] =>
    [encodeStd.getD (a / 4) 'A', encodeStd.getD (a % 4 * 16 + b / 16) 'A',
      encodeStd.getD (b % 16 * 4) 'A', '=']
  | a :: b :: c :: rest =>
    encodeStd.getD (a / 4) 'A' :: encodeStd.getD (a % 4 * 16 + b / 16) 'A' ::
      encodeStd.getD (b % 16 * 4 + c / 64) 'A' :: encodeStd.getD (c % 64) 'A' :: encode rest

/-! ## `dumpErrorImg` -/

/-- Go slice expression `data[lo:hi]` on a byte slice: a run-time panic (`none`)
unless `0 ≤ lo ≤ hi ≤ cap`.  `dumpErrorImg` clamps `hi` to `len(data)`, so the
bound `len(data)` used here is the one that applies. -/
def sliceBytes (data : List Nat) (lo hi : Int) : Option (List Nat) :=
  if 0 ≤ lo ∧ lo ≤ hi ∧ hi ≤ (data.length : Int) then
    some ((data.take hi.toNat).drop lo.toNat)
  else none

/-- The `for` loop of `dumpErrorImg` from row `r` on, with `k` rows to go.
The result is the list of rows logged, or `none` if a slice panics. -/
def dumpRows (data : List Nat) (bytesInRow : Int) : Nat → Int → Option (List (List Nat))
  | 0, _ => some []
  | k + 1, r =>
    let dataLen : Int := data.length
    let start := r * bytesInRow
    let lim := (r + 1) * bytesInRow
    let lim := if lim > dataLen then dataLen else lim
    match sliceBytes data start lim with
    | none => none
    | some row => (dumpRows data bytesInRow k (r + 1)).map (fun rows => row :: rows)

/-- The function `dumpErrorImg` of `main.go`: the loop `for r := 0; r < rowLim; r++` runs
`rowLim` times (not at all for `rowLim ≤ 0`).  `none` is a run-time panic. -/
def dumpErrorImg (data : List Nat) (bytesInRow rowLim : Int) : Option (List (List Nat)) :=
  dumpRows data bytesInRow rowLim.toNat 0

/-! ## The file system and the environment -/

/-- The file system: the directories that exist and the content of the files,
by path.  A path is kept as the program spells it. -/
structure FS where
  /-- Paths of the directories. -/
  dirs : List Str
  /-- Files: path and content, at most one entry for a path. -/
  files : List (Str × List Nat)
deriving DecidableEq

/-- A file is created, truncated or rewritten: afterwards `p` holds `d`. -/
def FS.put (fs : FS) (p : Str) (d : List Nat) : FS :=
  { fs with files := (p, d) :: fs.files.filter (fun e => e.1 ≠ p) }

/-- The directory `d` exists afterwards: it is added unless it is there. -/
def FS.withDir (fs : FS) (d : Str) : FS :=
  if d ∈ fs.dirs then fs else { fs with dirs := d :: fs.dirs }

/-- An attribute of an `etree` element: the namespace prefix (`Space`, empty
when the attribute is written without a prefix), the local name (`Key`) and the
value.  The attribute `x:filename="a"` has `Space = "x"` and `Key = "filename"`. -/
structure Attr where
  /-- Namespace prefix. -/
  Space : Str
  /-- Local name. -/
  Key : Str
  /-- Value of the attribute. -/
  Value : Str
deriving DecidableEq

/-- An element of an `etree` document, as far as the program reads it. -/
structure Element where
  /-- Tag of the element. -/
  Tag : Str
  /-- Attributes, in document order. -/
  Attr : List Attr
deriving DecidableEq

/-- Go `strings.IndexByte(s, c)`: the index of the first occurrence, or `-1`. -/
def IndexByte (s : Str) (c : Char) : Int :=
  if s.indexOf c < s.length then (s.indexOf c : Int) else -1

/-- The function `spaceDecompose` of `etree`: a `namespace:key` identifier is
cut at its first `':'`; without a `':'` the namespace is empty. -/
def spaceDecompose (str : Str) : Str × Str :=
  let colon := IndexByte str ':'
  if colon = -1 then ([], str)
  else (str.take colon.toNat, str.drop (colon.toNat + 1))

/-- The function `spaceMatch` of `etree`: the requested namespace `a` is empty,
or it is the namespace `b` of the attribute. -/
def spaceMatch (a b : Str) : Bool :=
  if a = [] then true else decide (a = b)

/-- The test in the loop of `SelectAttr` and of `SelectAttrValue`:
`spaceMatch(space, a.Space) && skey == a.Key`. -/
def attrMatches (key : Str) (a : Attr) : Bool :=
  spaceMatch (spaceDecompose key).1 a.Space && decide ((spaceDecompose key).2 = a.Key)

/-- The method `SelectAttr` of `etree`: the first attribute that matches the
requested key, `none` (`nil`) if there is none. -/
def Element.SelectAttr (e : Element) (key : Str) : Option XmlImageDmp.Attr :=
  e.Attr.find? (fun a => attrMatches key a)

/-- The method `SelectAttrValue` of `etree`: the value of the first attribute
that matches the requested key, `dflt` if there is none. -/
def Element.SelectAttrValue (e : Element) (key dflt : Str) : Str :=
  match e.Attr.find? (fun a => attrMatches key a) with
  | some a => a.Value
  | none => dflt

/-- What the world outside the program answers. -/
structure Env where
  /-- The call `doc.ReadFromFile(filename)`: `none` is an error (unreadable file,
  malformed XML); a document is given by `doc.FindElements`, from the XPath to
  the matched elements in document order. -/
  ReadFromFile : Str → Option (Str → List Element)
  /-- The call `os.Mkdir(path, 0766)`: the error. -/
  Mkdir : FS → Str → Option Str
  /-- The call `os.Create(path)`: the error. -/
  Create : FS → Str → Option Str
  /-- The write of the operating system under `fo.Write(data)` (the unexported
  `f.write(b)` of package `os`): the number of bytes written and the error. -/
  write : FS → Str → List Nat → Nat × Option Str
  /-- The call `ioutil.ReadDir(".")`: the names of the entries and the error. -/
  ReadDir : FS → List Str × Option Str

/-- How a run stops before its end: `log.Fatal`, or a run-time panic. -/
inductive Halt where
  | fatal
  | panic
deriving DecidableEq

/-- Result of a step of the program: it returns `a`, or the run stops; the
file system is the one left behind in both cases. -/
inductive Step (α : Type) where
  | ok (a : α) (fs : FS)
  | halt (h : Halt) (fs : FS)
deriving DecidableEq

/-! ## The program -/

/-- The function `dirExists` of `main.go`: `os.Stat` succeeds and reports a directory. -/
def dirExists (filename : Str) (fs : FS) : Bool :=
  decide (filename ∈ fs.dirs)

/-- The function `createTargetDir` of `main.go`. -/
def createTargetDir (env : Env) (filename : Str) (fs : FS) : Step Str :=
  match extractBaseName filename with
  | none => .halt .panic fs
  | some base =>
    if !dirExists base fs then
      match env.Mkdir fs base with
      | some _ => .halt .fatal fs
      | none => .ok base { fs with dirs := base :: fs.dirs }
    else .ok base fs

/-- The error value `io.ErrShortWrite`. -/
def ErrShortWrite : Option Str := some "short write".toList

/-- Go `(*os.File).Write`, the method behind `fo.Write(data)`:
`n, e := f.write(b)`; `if n != len(b) { err = io.ErrShortWrite }`;
`if e != nil { err = f.wrapErr("write", e) }`; `return n, err`. -/
def File_Write (env : Env) (fs : FS) (path : Str) (b : List Nat) : Nat × Option Str :=
  let n := (env.write fs path b).1
  let e := (env.write fs path b).2
  let err := if n ≠ b.length then ErrShortWrite else none
  let err := if e ≠ none then e else err
  (n, err)

/-- The function `writeImage` of `main.go`: the error returned and the file system left. -/
def writeImage (env : Env) (filepath : Str) (data : List Nat) (fs : FS) : Option Str × FS :=
  match env.Create fs filepath with
  | some err => (some err, fs)
  | none =>
    let fs1 := fs.put filepath []
    let wrote := (File_Write env fs1 filepath data).1
    let err := (File_Write env fs1 filepath data).2
    let fs2 := fs1.put filepath (data.take wrote)
    if err ≠ none ∨ wrote ≠ data.length then (err, fs2) else (none, fs2)

/-- Go `fmt.Sprintf("img_%04d", i)` for `i ≥ 0`: the decimal digits of `i`,
padded with zeros on the left to a width of at least four. -/
def Sprintf_img_04d (i : Nat) : Str :=
  "img_".toList ++
    (List.replicate (4 - (Nat.toDigits 10 i).length) '0' ++ Nat.toDigits 10 i)

/-- The body of the loop of `processWithXPath`, for the node of index `i`:
`.ok` when the body ends or reaches a `continue`, `.halt` when the run stops. -/
def processNode (env : Env) (filename imgAttr nameAttr : Str) (i : Nat) (node : Element)
    (fs : FS) : Step Unit :=
  let img := node.SelectAttrValue imgAttr []
  if img = [] then .ok () fs
  else
    let imgdata := excludeScheme img
    let name := node.SelectAttrValue nameAttr (Sprintf_img_04d i)
    match createTargetDir env filename fs with
    | .halt h fs1 => .halt h fs1
    | .ok dirname fs1 =>
      let decoded := (DecodeString imgdata).1
      let err := (DecodeString imgdata).2
      if err ≠ none then
        match dumpErrorImg decoded 30 2 with
        | none => .halt .panic fs1
        | some _ => .ok () fs1
      else
        match writeImage env (dirname ++ '/' :: name) decoded fs1 with
        | (some _, fs2) => .halt .fatal fs2
        | (none, fs2) => .ok () fs2

/-- The loop `for i, node := range doc.FindElements(nodeXpath)` of
`processWithXPath`, from index `i` on. -/
def processNodes (env : Env) (filename imgAttr nameAttr : Str) :
    Nat → List Element → FS → Step Unit
  | _, [], fs => .ok () fs
  | i, node :: rest, fs =>
    match processNode env filename imgAttr nameAttr i node fs with
    | .halt h fs1 => .halt h fs1
    | .ok _ fs1 => processNodes env filename imgAttr nameAttr (i + 1) rest fs1

/-- The function `processWithXPath` of `main.go`. -/
def processWithXPath (env : Env) (filename nodeXpath imgAttr nameAttr : Str) (fs : FS) :
    Step Unit :=
  match env.ReadFromFile filename with
  | none => .halt .fatal fs
  | some doc => processNodes env filename imgAttr nameAttr 0 (doc nodeXpath) fs

/-- The function `listFilenames` of `main.go`. -/
def listFilenames (env : Env) (fs : FS) : List Str × Option Str :=
  match (env.ReadDir fs).2 with
  | some err => ([], some err)
  | none => ((env.ReadDir fs).1.filter (fun f => ".xml".toList.isSuffixOf f), none)

/-- The loop `for i, f := range inputFiles` of `main`. -/
def processFiles (env : Env) (xpath data filename : Str) : List Str → FS → Step Unit
  | [], fs => .ok () fs
  | f :: more, fs =>
    match processWithXPath env f xpath data filename fs with
    | .halt h fs1 => .halt h fs1
    | .ok _ fs1 => processFiles env xpath data filename more fs1

/-- The function `main` of `main.go`, after `flag.Parse()`: `inputFiles`, `xpath`, `data`
and `filename` are the values of the flags `-i`, `-x`, `-d` and `-n`. -/
def main (env : Env) (inputFiles : List Str) (xpath data filename : Str) (fs : FS) :
    Step Unit :=
  let inputFiles := if inputFiles.length ≤ 0 then (listFilenames env fs).1 else inputFiles
  processFiles env xpath data filename inputFiles fs

/-! ## Counting the files of the output directory -/

/-- The path `p` names a file directly inside the directory `dir`: it is
`dir`, a slash, and a name without a slash. -/
def inDir (dir p : Str) : Bool :=
  (dir ++ ['/']).isPrefixOf p && decide ('/' ∉ p.drop (dir.length + 1))

/-- The paths of the files directly inside `dir`. -/
def filesIn (dir : Str) (fs : FS) : List Str :=
  (fs.files.map Prod.fst).filter (fun p => inDir dir p)

/-- The matched node has a non-empty payload that decodes without error. -/
def decodes (imgAttr : Str) (node : Element) : Bool :=
  decide (node.SelectAttrValue imgAttr [] ≠ []) &&
    decide ((DecodeString (excludeScheme (node.SelectAttrValue imgAttr []))).2 = none)

/-- The output names of the nodes that decode, the first node having index `i`. -/
def decodedNames (imgAttr nameAttr : Str) : Nat → List Element → List Str
  | _, [] => []
  | i, node :: rest =>
    if decodes imgAttr node then
      node.SelectAttrValue nameAttr (Sprintf_img_04d i) :: decodedNames imgAttr nameAttr (i + 1) rest
    else decodedNames imgAttr nameAttr (i + 1) rest

/-! ## Environments and documents of the examples -/

/-- An environment in which every operation succeeds and every write is
complete; `doc` is the document found in every input file. -/
def okEnv (doc : Str → List Element) : Env where
  ReadFromFile := fun _ => some doc
  Mkdir := fun _ _ => none
  Create := fun _ _ => none
  write := fun _ _ data => (data.length, none)
  ReadDir := fun _ => ([], none)

/-- The empty file system. -/
def emptyFS : FS := ⟨[], []⟩

/-- An element `<item bin=".." filename=".."/>`. -/
def item (bin name : String) : Element :=
  ⟨"item".toList, [⟨[], "bin".toList, bin.toList⟩, ⟨[], "filename".toList, name.toList⟩]⟩

/-- An element `<item bin=".."/>`, without a name. -/
def itemNoName (bin : String) : Element :=
  ⟨"item".toList, [⟨[], "bin".toList, bin.toList⟩]⟩

/-- An environment like `okEnv`, except that the write of the operating system
stops after three bytes and reports no error. -/
def shortWriteEnv (doc : Str → List Element) : Env where
  ReadFromFile := fun _ => some doc
  Mkdir := fun _ _ => none
  Create := fun _ _ => none
  write := fun _ _ _ => (3, none)
  ReadDir := fun _ => ([], none)

/-- An environment like `okEnv`, except that the working directory cannot be
listed. -/
def noListEnv (doc : Str → List Element) : Env where
  ReadFromFile := fun _ => some doc
  Mkdir := fun _ _ => none
  Create := fun _ _ => none
  write := fun _ _ data => (data.length, none)
  ReadDir := fun _ => ([], some "permission denied".toList)

/-- The bytes of an ASCII string. -/
def bytesOf (s : String) : List Nat :=
  s.toList.map Char.toNat

/-! ## The shape of a scheme prefix, in the words of the specification -/

/-- A non-empty string of word characters. -/
def IsWordStr (s : Str) : Prop :=
  s ≠ [] ∧ ∀ c ∈ s, isWord c = true

/-- The parameters `;p1=v1;p2=v2...` of a scheme prefix. -/
def specParams : List (Str × Str) → Str
  | [] => []
  | p :: ps => ';' :: (p.1 ++ '=' :: (p.2 ++ specParams ps))

/-- The scheme prefix `data:<type>/<subtype>[;param=value]*;base64,` of the
specification, followed by `rest`. -/
def specPrefixed (type subtype : Str) (ps : List (Str × Str)) (rest : Str) : Str :=
  "data:".toList ++ (type ++ '/' :: (subtype ++ (specParams ps ++ (";base64,".toList ++ rest))))

/-- The string begins with a scheme prefix of the shape
`data:<type>/<subtype>[;param=value]*;base64,`, where the type, the subtype,
the parameter names and the values are non-empty strings of word characters. -/
def HasSchemePrefix (s : Str) : Prop :=
  ∃ type subtype ps rest, IsWordStr type ∧ IsWordStr subtype ∧
    (∀ p ∈ ps, IsWordStr p.1 ∧ IsWordStr p.2) ∧ s = specPrefixed type subtype ps rest

/-! ## Lemmas on `LastIndex` and `Base` -/

theorem lastIndexFrom_spec (c : Char) (s : Str) (i : Nat) (last : Int) :
    (c ∉ s ∧ lastIndexFrom c s i last = last) ∨
    (∃ pre post, s = pre ++ c :: post ∧ c ∉ post ∧
      lastIndexFrom c s i last = ((i + pre.length : Nat) : Int)) := by
  induction s generalizing i last with
  | nil => left; simp [lastIndexFrom]
  | cons x xs ih =>
    rcases ih (i + 1) (if x = c then (i : Int) else last) with ⟨hn, he⟩ | ⟨pre, post, hs, hp, he⟩
    · by_cases hx : x = c
      · right
        refine ⟨[], xs, by simp [hx], hn, ?_⟩
        simp only [hx, if_true] at he
        simp [lastIndexFrom, he, hx]
      · left
        refine ⟨?_, ?_⟩
        · simp only [List.mem_cons, not_or]
          exact ⟨fun h => hx h.symm, hn⟩
        · simp only [hx, if_false] at he
          simp [lastIndexFrom, he, hx]
    · right
      refine ⟨x :: pre, post, by simp [hs], hp, ?_⟩
      simp only [lastIndexFrom, he, List.length_cons]
      congr 1
      omega

theorem LastIndex_of_mem (c : Char) (s : Str) (h : c ∈ s) :
    ∃ pre post, s = pre ++ c :: post ∧ c ∉ post ∧ LastIndex s c = (pre.length : Int) := by
  rcases lastIndexFrom_spec c s 0 (-1) with ⟨hn, _⟩ | ⟨pre, post, hs, hp, he⟩
  · exact absurd h hn
  · exact ⟨pre, post, hs, hp, by simpa [LastIndex] using he⟩

theorem LastIndex_of_not_mem (c : Char) (s : Str) (h : c ∉ s) : LastIndex s c = -1 := by
  rcases lastIndexFrom_spec c s 0 (-1) with ⟨_, he⟩ | ⟨pre, post, hs, _, _⟩
  · exact he
  · exact absurd (by simp [hs]) h

/-- The result of `path.Base` is `"/"` or has no slash in it. -/
theorem Base_no_slash (path : Str) : Base path = ['/'] ∨ '/' ∉ Base path := by
  unfold Base
  by_cases h0 : path = []
  · right; simp [h0]
  · simp only [h0, if_false]
    by_cases hm : '/' ∈ stripTrailingSlashes path
    · obtain ⟨pre, post, hs, hp, he⟩ := LastIndex_of_mem '/' _ hm
      have h1 : (0 : Int) ≤ LastIndex (stripTrailingSlashes path) '/' := by rw [he]; omega
      simp only [h1, if_true, he, Int.toNat_ofNat]
      have hd : (stripTrailingSlashes path).drop (pre.length + 1) = post := by
        rw [hs]; simp
      rw [hd]
      by_cases hp0 : post = []
      · left; simp [hp0]
      · right; simpa [hp0] using hp
    · have h1 : ¬ (0 : Int) ≤ LastIndex (stripTrailingSlashes path) '/' := by
        rw [LastIndex_of_not_mem _ _ hm]; omega
      simp only [h1, if_false]
      by_cases hp0 : stripTrailingSlashes path = []
      · left; simp [hp0]
      · right; simpa [hp0] using hm

/-- Where the base name has a `'.'`, `extractBaseName` cuts it just before the
last one. -/
theorem extractBaseName_of_mem (filename : Str) (h : '.' ∈ Base filename) :
    ∃ stem ext, extractBaseName filename = some stem ∧
      Base filename = stem ++ '.' :: ext ∧ '.' ∉ ext := by
  obtain ⟨pre, post, hs, hp, he⟩ := LastIndex_of_mem '.' _ h
  refine ⟨pre, post, ?_, hs, hp⟩
  have hlen : (pre.length : Int) ≤ ((Base filename).length : Int) := by
    rw [hs]; simp only [List.length_append, List.length_cons]; omega
  have htake : (Base filename).take pre.length = pre := by
    rw [hs]; simp
  simp [extractBaseName, sliceTo, he, hlen, htake]

/-- C9: for every input path whose base name (`path.Base`) contains a `'.'`,
`extractBaseName` returns the base name cut just before its last `'.'`: the
result `stem` satisfies `Base filename = stem ++ "." ++ ext` with no `'.'` in
`ext`, and no directory component (no `'/'`) is left in it. -/
theorem extractBaseName_strips_final_extension (filename : Str)
    (h : '.' ∈ Base filename) :
    ∃ stem ext, extractBaseName filename = some stem ∧
      Base filename = stem ++ '.' :: ext ∧ '.' ∉ ext ∧ '/' ∉ stem := by
  obtain ⟨stem, ext, h1, h2, h3⟩ := extractBaseName_of_mem filename h
  refine ⟨stem, ext, h1, h2, h3, ?_⟩
  rcases Base_no_slash filename with hb | hb
  · rw [hb] at h; simp at h
  · intro hmem
    exact hb (by rw [h2]; simp [hmem])

/-- Witness of C9 at `"a/b/report.v2.xml"` (and `"catalog.xml"`). -/
theorem extractBaseName_strips_final_extension_witness :
    '.' ∈ Base "a/b/report.v2.xml".toList ∧
    (∃ stem ext, extractBaseName "a/b/report.v2.xml".toList = some stem ∧
      Base "a/b/report.v2.xml".toList = stem ++ '.' :: ext ∧ '.' ∉ ext ∧ '/' ∉ stem) ∧
    extractBaseName "a/b/report.v2.xml".toList = some "report.v2".toList ∧
    extractBaseName "catalog.xml".toList = some "catalog".toList :=
  ⟨by decide, extractBaseName_strips_final_extension _ (by decide), by decide, by decide⟩

/-! ## `excludeScheme` -/

/-- A run of word characters followed by a character that is not one can be
read off a string in one way only. -/
theorem word_run_unique (w u : Str) (c d : Char) (Y Z : Str)
    (hw : ∀ x ∈ w, isWord x = true) (hu : ∀ x ∈ u, isWord x = true)
    (hc : isWord c = false) (hd : isWord d = false)
    (h : w ++ c :: Y = u ++ d :: Z) : w = u ∧ c = d ∧ Y = Z := by
  induction w generalizing u with
  | nil =>
    cases u with
    | nil => simpa using h
    | cons y ys =>
      simp only [List.nil_append, List.cons_append, List.cons.injEq] at h
      have := hu y (by simp)
      rw [← h.1, hc] at this
      exact absurd this (by simp)
  | cons x xs ih =>
    cases u with
    | nil =>
      simp only [List.nil_append, List.cons_append, List.cons.injEq] at h
      have := hw x (by simp)
      rw [h.1, hd] at this
      exact absurd this (by simp)
    | cons y ys =>
      simp only [List.cons_append, List.cons.injEq] at h
      obtain ⟨h1, h2, h3⟩ := ih ys (fun z hz => hw z (by simp [hz]))
        (fun z hz => hu z (by simp [hz])) h.2
      exact ⟨by rw [h.1, h1], h2, h3⟩

/-- What follows the subtype, or a parameter, in a scheme prefix starts with `;`. -/
theorem specParams_tail (ps : List (Str × Str)) (rest : Str) :
    ∃ Z, specParams ps ++ (";base64,".toList ++ rest) = ';' :: Z := by
  cases ps with
  | nil => exact ⟨_, rfl⟩
  | cons p ps => exact ⟨_, rfl⟩

/-- C3, at the failing input: with two parameters, `;a=b;c=d`, the prefix is
not removed; `excludeScheme` returns its argument, not `rest`. -/
theorem excludeScheme_keeps_two_parameters :
    specPrefixed "image".toList "png".toList
        [("a".toList, "b".toList), ("c".toList, "d".toList)] "QUJD".toList
      = "data:image/png;a=b;c=d;base64,QUJD".toList ∧
    excludeScheme "data:image/png;a=b;c=d;base64,QUJD".toList
      = "data:image/png;a=b;c=d;base64,QUJD".toList ∧
    excludeScheme "data:image/png;a=b;c=d;base64,QUJD".toList ≠ "QUJD".toList := by
  decide

/-- C4, at the failing input: `data:a/b;c=de=f;base64,XYZ` does not begin with a
scheme prefix of the shape `data:<type>/<subtype>[;param=value]*;base64,` (the
value `de=f` is not made of word characters), and `excludeScheme` does not
return it unchanged: it returns `XYZ`. -/
theorem excludeScheme_strips_malformed_parameter :
    ¬ HasSchemePrefix "data:a/b;c=de=f;base64,XYZ".toList ∧
    excludeScheme "data:a/b;c=de=f;base64,XYZ".toList = "XYZ".toList := by
  refine ⟨?_, by decide⟩
  rintro ⟨ty, st, ps, rest, hty, hst, hps, hs⟩
  simp only [specPrefixed, String.toList, List.cons_append, List.nil_append,
    List.cons.injEq, true_and] at hs
  -- the type
  obtain ⟨h1, -, h2⟩ := word_run_unique ['a'] ty '/' '/' _ _ (by decide) hty.2
    (by decide) (by decide) hs
  -- the subtype
  obtain ⟨Z, hZ⟩ := specParams_tail ps rest
  simp only [String.toList, List.cons_append, List.nil_append] at hZ
  rw [hZ] at h2
  obtain ⟨h3, -, h4⟩ := word_run_unique ['b'] st ';' ';' _ _ (by decide) hst.2
    (by decide) (by decide) h2
  subst h4
  cases ps with
  | nil =>
    simp only [specParams, List.nil_append, List.cons_append, List.cons.injEq] at hZ
    exact absurd hZ.2.1 (by decide)
  | cons p ps =>
    have hp := hps p (by simp)
    simp only [specParams, List.cons_append, List.cons.injEq, true_and, List.append_assoc] at hZ
    -- the name of the parameter
    obtain ⟨h5, -, h6⟩ := word_run_unique ['c'] p.1 '=' '=' _ _ (by decide) hp.1.2
      (by decide) (by decide) hZ.symm
    -- its value: the next `=` would have to be a `;`
    obtain ⟨Z2, hZ2⟩ := specParams_tail ps rest
    simp only [String.toList, List.cons_append, List.nil_append] at hZ2
    rw [hZ2] at h6
    obtain ⟨-, h7, -⟩ := word_run_unique ['d', 'e'] p.2 '=' ';' _ _ (by decide) hp.2.2
      (by decide) (by decide) h6
    exact absurd h7 (by decide)

/-! ## The pattern on well-formed prefixes with at most one parameter -/

theorem word_run_nil : Re.word.run [] = [] := by rw [Re.run]

theorem word_run_cons (c : Char) (cs : Str) :
    Re.word.run (c :: cs) = if isWord c = true then [cs] else [] := by rw [Re.run]

theorem str_run (p s : Str) :
    (Re.str p).run s = if p.isPrefixOf s then [s.drop p.length] else [] := by rw [Re.run]

theorem seq_run (a b : Re) (s : Str) :
    (Re.seq a b).run s = (a.run s).flatMap (fun s1 => b.run s1) := by rw [Re.run]

theorem plus_run (a : Re) (s : Str) :
    (Re.plus a).run s = plusRun (fun s1 => a.run s1) s.length s := by rw [Re.run]

theorem opt_run (a : Re) (s : Str) : (Re.opt a).run s = a.run s ++ [s] := by rw [Re.run]

/-- Every result of `\w+` is reached by reading a non-empty run of word
characters. -/
theorem plusRun_word_mem (n : Nat) : ∀ (s r : Str),
    r ∈ plusRun (fun s1 => Re.word.run s1) n s →
    ∃ u, u ≠ [] ∧ (∀ x ∈ u, isWord x = true) ∧ s = u ++ r := by
  induction n with
  | zero =>
    intro s r h
    cases s with
    | nil => simp [plusRun, word_run_nil] at h
    | cons c cs =>
      by_cases hc : isWord c = true
      · simp only [plusRun, word_run_cons, hc, if_true, List.mem_singleton] at h
        exact ⟨[c], by simp, by simpa using hc, by simp [h]⟩
      · simp [plusRun, word_run_cons, hc] at h
  | succ n ih =>
    intro s r h
    cases s with
    | nil => simp [plusRun, word_run_nil] at h
    | cons c cs =>
      by_cases hc : isWord c = true
      · simp only [plusRun, word_run_cons, hc, if_true, List.flatMap_cons, List.flatMap_nil,
          List.append_nil, List.mem_append, List.mem_singleton] at h
        rcases h with h | h
        · split at h
          · obtain ⟨u, hu, hw, hs⟩ := ih cs r h
            refine ⟨c :: u, by simp, ?_, by simp [hs]⟩
            intro x hx
            rcases List.mem_cons.mp hx with rfl | hx
            · exact hc
            · exact hw x hx
          · simp at h
        · exact ⟨[c], by simp, by simpa using hc, by simp [h]⟩
      · simp [plusRun, word_run_cons, hc] at h

/-- The part `\w+` finds nothing where no word character stands. -/
theorem plusRun_word_nil (n : Nat) (s : Str)
    (h : s = [] ∨ ∃ d Y, s = d :: Y ∧ isWord d = false) :
    plusRun (fun s1 => Re.word.run s1) n s = [] := by
  rw [List.eq_nil_iff_forall_not_mem]
  intro r hr
  obtain ⟨u, hu, hw, hs⟩ := plusRun_word_mem n s r hr
  cases u with
  | nil => exact hu rfl
  | cons x xs =>
    rcases h with h | ⟨d, Y, h, hd⟩
    · rw [h] at hs; simp at hs
    · rw [h] at hs
      simp only [List.cons_append, List.cons.injEq] at hs
      have := hw x (by simp)
      rw [← hs.1, hd] at this
      exact absurd this (by simp)

/-- The first result of `\w+` on a run of word characters is the whole run
(the match is greedy). -/
theorem plusRun_word_head (w : Str) : ∀ (n : Nat) (tail : Str),
    w ≠ [] → (∀ x ∈ w, isWord x = true) → w.length ≤ n + 1 →
    (tail = [] ∨ ∃ d Y, tail = d :: Y ∧ isWord d = false) →
    ∃ o, plusRun (fun s1 => Re.word.run s1) n (w ++ tail) = tail :: o := by
  induction w with
  | nil => intro n tail h; exact absurd rfl h
  | cons c w ih =>
    intro n tail _ hw hlen htail
    have hc : isWord c = true := hw c (by simp)
    cases n with
    | zero =>
      have : w = [] := by
        simp only [List.length_cons] at hlen
        exact List.length_eq_zero.mp (by omega)
      subst this
      exact ⟨[], by simp [plusRun, word_run_cons, hc]⟩
    | succ n =>
      simp only [List.cons_append, plusRun, word_run_cons, hc, if_true, List.flatMap_cons,
        List.flatMap_nil, List.append_nil, List.length_cons, Nat.lt_succ_self]
      by_cases hw0 : w = []
      · subst hw0
        simp only [List.nil_append]
        rw [plusRun_word_nil n tail htail]
        exact ⟨[], rfl⟩
      · obtain ⟨o, ho⟩ := ih n tail hw0 (fun x hx => hw x (by simp [hx]))
          (by simp only [List.length_cons] at hlen; omega) htail
        rw [ho]
        exact ⟨o ++ [w ++ tail], rfl⟩

theorem wordsRe_head (w tail : Str) (hw : IsWordStr w)
    (htail : tail = [] ∨ ∃ d Y, tail = d :: Y ∧ isWord d = false) :
    ∃ o, wordsRe.run (w ++ tail) = tail :: o := by
  rw [wordsRe, plus_run]
  exact plusRun_word_head w _ tail hw.1 hw.2 (by simp; omega) htail

/-- After `\w+` on a string that starts with word characters `w` and then the
character `d`, which is not one, what is left starts with a word character or
with `d`. -/
theorem wordsRe_mem (w : Str) (d : Char) (Y r : Str)
    (hw : ∀ x ∈ w, isWord x = true) (hd : isWord d = false)
    (h : r ∈ wordsRe.run (w ++ d :: Y)) :
    ∃ e Z, r = e :: Z ∧ (isWord e = true ∨ e = d) := by
  rw [wordsRe, plus_run] at h
  obtain ⟨u, -, hu, hs⟩ := plusRun_word_mem _ _ r h
  clear h
  induction w generalizing u with
  | nil =>
    cases u with
    | nil => exact ⟨d, Y, by simpa using hs.symm, Or.inr rfl⟩
    | cons x xs =>
      simp only [List.nil_append, List.cons_append, List.cons.injEq] at hs
      have := hu x (by simp)
      rw [← hs.1, hd] at this
      exact absurd this (by simp)
  | cons c w ih =>
    cases u with
    | nil => exact ⟨c, w ++ d :: Y, by simpa using hs.symm, Or.inl (hw c (by simp))⟩
    | cons x xs =>
      simp only [List.cons_append, List.cons.injEq] at hs
      exact ih (fun y hy => hw y (by simp [hy])) xs (fun y hy => hu y (by simp [hy])) hs.2

/-- A round of `\w+=\w+` fails on word characters followed by a character that
is neither a word character nor `=`. -/
theorem paramRe_nil (w : Str) (d : Char) (Y : Str)
    (hw : ∀ x ∈ w, isWord x = true) (hd : isWord d = false) (hne : d ≠ '=') :
    paramRe.run (w ++ d :: Y) = [] := by
  rw [paramRe, seq_run, List.flatMap_eq_nil_iff]
  intro r hr
  obtain ⟨e, Z, hr, he⟩ := wordsRe_mem w d Y r hw hd hr
  subst hr
  have hee : e ≠ '=' := by
    rcases he with he | he
    · intro h; rw [h] at he; exact absurd he (by decide)
    · rw [he]; exact hne
  rw [seq_run, str_run]
  simp [String.toList, List.isPrefixOf, Ne.symm hee]

theorem plusRun_nil (f : Str → List Str) (n : Nat) (s : Str) (h : f s = []) :
    plusRun f n s = [] := by
  cases n <;> simp [plusRun, h]

/-- The first result of one round of `\w+=\w+` on `p=v` followed by `tail`. -/
theorem paramRe_head (p v tail : Str) (hp : IsWordStr p) (hv : IsWordStr v)
    (htail : tail = [] ∨ ∃ d Y, tail = d :: Y ∧ isWord d = false) :
    ∃ o, paramRe.run (p ++ '=' :: (v ++ tail)) = tail :: o := by
  obtain ⟨o1, h1⟩ := wordsRe_head p ('=' :: (v ++ tail)) hp (Or.inr ⟨_, _, rfl, by decide⟩)
  obtain ⟨o2, h2⟩ := wordsRe_head v tail hv htail
  refine ⟨o2 ++ o1.flatMap (fun s1 => (Re.seq (.str "=".toList) wordsRe).run s1), ?_⟩
  rw [paramRe, seq_run, h1]
  simp [seq_run, str_run, String.toList, List.isPrefixOf, h2]

/-- The first result of the pattern on a prefix without parameters. -/
theorem schemeRe_head_zero (type subtype rest : Str)
    (ht : IsWordStr type) (hs : IsWordStr subtype) :
    ∃ o, schemeRe.run (specPrefixed type subtype [] rest) = rest :: o := by
  obtain ⟨o1, h1⟩ := wordsRe_head type ('/' :: (subtype ++ (";base64,".toList ++ rest))) ht
    (Or.inr ⟨_, _, rfl, by decide⟩)
  obtain ⟨o2, h2⟩ := wordsRe_head subtype (";base64,".toList ++ rest) hs
    (Or.inr ⟨_, _, rfl, by decide⟩)
  have h3 : paramRe.run ("base64,".toList ++ rest) = [] :=
    paramRe_nil "base64".toList ',' rest (by decide) (by decide) (by decide)
  have h4 : (Re.plus paramRe).run ("base64,".toList ++ rest) = [] := by
    rw [plus_run]; exact plusRun_nil _ _ _ h3
  simp only [String.toList, List.cons_append, List.nil_append] at h1 h2 h4
  simp [schemeRe, specPrefixed, specParams, mediaRe, paramsRe, seq_run, str_run, opt_run,
    String.toList, List.isPrefixOf, h1, h2, h4]

/-- The first result of the pattern on a prefix with one parameter. -/
theorem schemeRe_head_one (type subtype p v rest : Str)
    (ht : IsWordStr type) (hs : IsWordStr subtype) (hp : IsWordStr p) (hv : IsWordStr v) :
    ∃ o, schemeRe.run (specPrefixed type subtype [(p, v)] rest) = rest :: o := by
  obtain ⟨o1, h1⟩ := wordsRe_head type
    ('/' :: (subtype ++ (';' :: (p ++ '=' :: (v ++ (";base64,".toList ++ rest)))))) ht
    (Or.inr ⟨_, _, rfl, by decide⟩)
  obtain ⟨o2, h2⟩ := wordsRe_head subtype
    (';' :: (p ++ '=' :: (v ++ (";base64,".toList ++ rest)))) hs
    (Or.inr ⟨_, _, rfl, by decide⟩)
  obtain ⟨o3, h3⟩ := paramRe_head p v (";base64,".toList ++ rest) hp hv
    (Or.inr ⟨_, _, rfl, by decide⟩)
  -- no second round of `\w+=\w+` starts at `;base64,`
  have h4 : paramRe.run (";base64,".toList ++ rest) = [] :=
    paramRe_nil [] ';' _ (by simp) (by decide) (by decide)
  have h5 : ∃ o, (Re.plus paramRe).run (p ++ '=' :: (v ++ (";base64,".toList ++ rest)))
      = (";base64,".toList ++ rest) :: o := by
    rw [plus_run]
    cases (p ++ '=' :: (v ++ (";base64,".toList ++ rest))).length with
    | zero => exact ⟨o3, by rw [plusRun, h3]⟩
    | succ n =>
      rw [plusRun, h3, List.flatMap_cons, plusRun_nil _ n _ h4]
      exact ⟨_, by simp only [ite_self, List.nil_append, List.singleton_append]; rfl⟩
  obtain ⟨o5, h5⟩ := h5
  simp only [String.toList, List.cons_append, List.nil_append] at h1 h2 h5
  simp [schemeRe, specPrefixed, specParams, mediaRe, paramsRe, seq_run, str_run, opt_run,
    String.toList, List.isPrefixOf, h1, h2, h5]

/-- The string is its scheme prefix followed by `rest`. -/
theorem specPrefixed_eq (type subtype : Str) (ps : List (Str × Str)) (rest : Str) :
    ∃ pre, specPrefixed type subtype ps rest = pre ++ rest :=
  ⟨"data:".toList ++ (type ++ '/' :: (subtype ++ (specParams ps ++ ";base64,".toList))),
    by simp [specPrefixed]⟩

/-- With no parameter or with one, a well-formed scheme prefix is removed:
`excludeScheme` returns exactly what follows it. -/
theorem excludeScheme_strips_at_most_one_parameter (type subtype : Str)
    (ps : List (Str × Str)) (rest : Str)
    (ht : IsWordStr type) (hs : IsWordStr subtype)
    (hps : ∀ p ∈ ps, IsWordStr p.1 ∧ IsWordStr p.2) (hlen : ps.length ≤ 1) :
    excludeScheme (specPrefixed type subtype ps rest) = rest := by
  have hrun : ∃ o, schemeRe.run (specPrefixed type subtype ps rest) = rest :: o := by
    match ps, hps, hlen with
    | [], _, _ => exact schemeRe_head_zero type subtype rest ht hs
    | [(p, v)], hps, _ =>
      exact schemeRe_head_one type subtype p v rest ht hs (hps (p, v) (by simp)).1
        (hps (p, v) (by simp)).2
    | _ :: _ :: _, _, hlen => simp at hlen
  obtain ⟨o, ho⟩ := hrun
  obtain ⟨pre, hpre⟩ := specPrefixed_eq type subtype ps rest
  rw [excludeScheme, FindStringIndex, ho]
  simp only [hpre, List.length_append, Nat.add_sub_cancel]
  exact List.drop_left' rfl

/-- The match is anchored: a string that does not start with `data:` is
returned unchanged. -/
theorem excludeScheme_anchored (s : Str) (h : "data:".toList.isPrefixOf s = false) :
    excludeScheme s = s := by
  have hr : schemeRe.run s = [] := by
    rw [schemeRe, seq_run, str_run, h]
    rfl
  rw [excludeScheme, FindStringIndex, hr]

/-- What `excludeScheme` returns is the end of its argument. -/
theorem excludeScheme_suffix (s : Str) : excludeScheme s <:+ s := by
  rw [excludeScheme]
  split
  · exact List.suffix_refl s
  · exact List.drop_suffix _ s

/-! ## The pattern on prefixes with two parameters or more -/

/-- Two ways of cutting a string after characters of one class, one of them
right before a character outside the class. -/
theorem run_split (C : Char → Bool) (u : Str) : ∀ (a : Str) (d : Char) (Y r : Str),
    (∀ x ∈ a, C x = true) → (∀ x ∈ u, C x = true) → C d = false →
    a ++ d :: Y = u ++ r → ∃ v, a = u ++ v ∧ r = v ++ d :: Y := by
  induction u with
  | nil => intro a d Y r _ _ _ h; exact ⟨a, rfl, by simpa using h.symm⟩
  | cons x xs ih =>
    intro a d Y r ha hu hd h
    cases a with
    | nil =>
      simp only [List.nil_append, List.cons_append, List.cons.injEq] at h
      have := hu x (by simp)
      rw [← h.1, hd] at this
      exact absurd this (by simp)
    | cons c a =>
      simp only [List.cons_append, List.cons.injEq] at h
      obtain ⟨v, h1, h2⟩ := ih a d Y r (fun y hy => ha y (by simp [hy]))
        (fun y hy => hu y (by simp [hy])) hd h.2
      exact ⟨v, by rw [h.1, h1]; rfl, h2⟩

/-- The characters a round of `\w+=\w+` can read. -/
theorem eqWord_of_word (x : Char) (h : isWord x = true) : (isWord x || x == '=') = true := by
  simp [h]

/-- A greedy iteration reads a non-empty run of characters of a class if each
round does. -/
theorem plusRun_consumes (C : Char → Bool) (f : Str → List Str)
    (hf : ∀ s r, r ∈ f s → ∃ u, u ≠ [] ∧ (∀ x ∈ u, C x = true) ∧ s = u ++ r) (n : Nat) :
    ∀ s r, r ∈ plusRun f n s → ∃ u, u ≠ [] ∧ (∀ x ∈ u, C x = true) ∧ s = u ++ r := by
  induction n with
  | zero => intro s r h; exact hf s r h
  | succ n ih =>
    intro s r h
    simp only [plusRun, List.mem_flatMap, List.mem_append, List.mem_singleton] at h
    obtain ⟨s1, hs1, h | h⟩ := h
    · split at h
      · obtain ⟨u1, hu1, hc1, he1⟩ := hf s s1 hs1
        obtain ⟨u2, -, hc2, he2⟩ := ih s1 r h
        refine ⟨u1 ++ u2, by simp [hu1], ?_, by rw [he1, he2, List.append_assoc]⟩
        intro x hx
        rcases List.mem_append.mp hx with hx | hx
        · exact hc1 x hx
        · exact hc2 x hx
      · simp at h
    · rw [h]; exact hf s s1 hs1

theorem wordsRe_consumes (s r : Str) (h : r ∈ wordsRe.run s) :
    ∃ u, u ≠ [] ∧ (∀ x ∈ u, isWord x = true) ∧ s = u ++ r := by
  rw [wordsRe, plus_run] at h
  exact plusRun_word_mem _ s r h

theorem str_run_mem (p s r : Str) (h : r ∈ (Re.str p).run s) : s = p ++ r := by
  rw [str_run] at h
  split at h
  · rename_i hp
    obtain ⟨t, ht⟩ := List.isPrefixOf_iff_prefix.mp hp
    simp only [List.mem_singleton] at h
    rw [h, ← ht]
    simp
  · simp at h

/-- One round of `\w+=\w+` reads word characters and `=` only. -/
theorem paramRe_consumes (s r : Str) (h : r ∈ paramRe.run s) :
    ∃ u, u ≠ [] ∧ (∀ x ∈ u, (isWord x || x == '=') = true) ∧ s = u ++ r := by
  rw [paramRe, seq_run] at h
  simp only [List.mem_flatMap] at h
  obtain ⟨s1, hs1, h⟩ := h
  rw [seq_run] at h
  simp only [List.mem_flatMap] at h
  obtain ⟨s2, hs2, h⟩ := h
  obtain ⟨u1, hu1, hc1, he1⟩ := wordsRe_consumes s s1 hs1
  have he2 := str_run_mem _ _ _ hs2
  obtain ⟨u2, -, hc2, he3⟩ := wordsRe_consumes s2 r h
  refine ⟨u1 ++ '=' :: u2, by simp, ?_, ?_⟩
  · intro x hx
    simp only [List.mem_append, List.mem_cons] at hx
    rcases hx with hx | hx | hx
    · exact eqWord_of_word x (hc1 x hx)
    · simp [hx]
    · exact eqWord_of_word x (hc2 x hx)
  · rw [he1, he2, he3]; simp [String.toList]

/-- After a parameter, `;base64,` does not match where another parameter starts. -/
theorem base64_not_param (p W : Str) (hp : IsWordStr p) :
    (Re.str ";base64,".toList).run (';' :: (p ++ '=' :: W)) = [] := by
  rw [List.eq_nil_iff_forall_not_mem]
  intro r hr
  have h := str_run_mem _ _ _ hr
  simp only [String.toList, List.cons_append, List.nil_append, List.cons.injEq, true_and] at h
  have := word_run_unique p ['b', 'a', 's', 'e', '6', '4'] '=' ',' W r hp.2 (by decide)
    (by decide) (by decide) h
  exact absurd this.2.1 (by decide)

/-- The literal `;base64,` does not match a string that starts with a character of a
class without `;`. -/
theorem base64_not_class (C : Char → Bool) (hC : C ';' = false) (v : Str) (T : Str)
    (hv : v ≠ []) (hc : ∀ x ∈ v, C x = true) :
    (Re.str ";base64,".toList).run (v ++ T) = [] := by
  rw [List.eq_nil_iff_forall_not_mem]
  intro r hr
  have h := str_run_mem _ _ _ hr
  cases v with
  | nil => exact hv rfl
  | cons x xs =>
    simp only [String.toList, List.cons_append, List.cons.injEq] at h
    have := hc x (by simp)
    rw [h.1, hC] at this
    exact absurd this (by simp)

/-- What `\w+` leaves of word characters followed by a character that is not
one: the end of the run, then that character. -/
theorem wordsRe_left (w : Str) (d : Char) (Y r : Str)
    (hw : ∀ x ∈ w, isWord x = true) (hd : isWord d = false)
    (h : r ∈ wordsRe.run (w ++ d :: Y)) :
    ∃ v, (∀ x ∈ v, isWord x = true) ∧ r = v ++ d :: Y := by
  obtain ⟨u, -, hu, he⟩ := wordsRe_consumes _ r h
  obtain ⟨v, hv, hr⟩ := run_split isWord u w d Y r hw hu hd he
  exact ⟨v, fun x hx => hw x (by rw [hv]; simp [hx]), hr⟩

/-- What `(?:\w+=\w+)+` leaves of word characters and `=` followed by another
character: the end of the run, then that character. -/
theorem params_left (a : Str) (d : Char) (Y r : Str)
    (ha : ∀ x ∈ a, (isWord x || x == '=') = true) (hd : (isWord d || d == '=') = false)
    (h : r ∈ (Re.plus paramRe).run (a ++ d :: Y)) :
    ∃ v, (∀ x ∈ v, (isWord x || x == '=') = true) ∧ r = v ++ d :: Y := by
  rw [plus_run] at h
  obtain ⟨u, -, hu, he⟩ := plusRun_consumes (fun x => isWord x || x == '=')
    (fun s1 => paramRe.run s1) paramRe_consumes _ _ r h
  obtain ⟨v, hv, hr⟩ := run_split (fun x => isWord x || x == '=') u a d Y r ha hu hd he
  exact ⟨v, fun x hx => ha x (by rw [hv]; simp [hx]), hr⟩

/-- The pattern does not match when the subtype is followed by `;`, a run `a1`
of word characters and `=` that starts with a parameter name and `=`, then `;`
and another parameter name and `=`. -/
theorem schemeRe_run_aux (type subtype a1 p1 W1 p2 W2 : Str)
    (ht : IsWordStr type) (hs : IsWordStr subtype)
    (ha1 : ∀ x ∈ a1, (isWord x || x == '=') = true)
    (hp1 : IsWordStr p1) (hp2 : IsWordStr p2)
    (hZ : a1 ++ ';' :: (p2 ++ '=' :: W2) = p1 ++ '=' :: W1) :
    schemeRe.run ("data:".toList ++
      (type ++ '/' :: (subtype ++ ';' :: (a1 ++ ';' :: (p2 ++ '=' :: W2))))) = [] := by
  rw [List.eq_nil_iff_forall_not_mem]
  intro r hr
  rw [schemeRe, seq_run] at hr
  simp only [List.mem_flatMap] at hr
  obtain ⟨X, hX, hr⟩ := hr
  have hX := List.append_cancel_left (str_run_mem _ _ _ hX)
  subst hX
  rw [seq_run] at hr
  simp only [List.mem_flatMap] at hr
  obtain ⟨s1, hs1, hr⟩ := hr
  rw [seq_run] at hr
  simp only [List.mem_flatMap] at hr
  obtain ⟨s2, hs2, hr⟩ := hr
  -- the type: `\w+` must stop at the `/`
  rw [mediaRe, seq_run] at hs1
  simp only [List.mem_flatMap] at hs1
  obtain ⟨r0, hr0, hs1⟩ := hs1
  obtain ⟨v0, hv0, he0⟩ := wordsRe_left type '/' _ r0 ht.2 (by decide) hr0
  rw [seq_run] at hs1
  simp only [List.mem_flatMap] at hs1
  obtain ⟨r1, hr1, hs1⟩ := hs1
  have hr1 := str_run_mem _ _ _ hr1
  rw [he0] at hr1
  have hv0nil : v0 = [] := by
    cases v0 with
    | nil => rfl
    | cons x xs =>
      simp only [String.toList, List.cons_append, List.cons.injEq] at hr1
      have hx := hv0 x (by simp)
      rw [hr1.1] at hx
      exact absurd hx (by decide)
  subst hv0nil
  simp only [String.toList, List.nil_append, List.cons_append, List.cons.injEq, true_and] at hr1
  subst hr1
  -- the subtype: what is left is the end of the subtype, then the first `;`
  obtain ⟨v1, hv1, he1⟩ := wordsRe_left subtype ';' _ s1 hs.2 (by decide) hs1
  subst he1
  rw [paramsRe, opt_run, List.mem_append] at hs2
  rcases hs2 with hs2 | hs2
  · -- the parameters are read
    rw [seq_run] at hs2
    simp only [List.mem_flatMap] at hs2
    obtain ⟨t, ht1, hs2⟩ := hs2
    have ht1 := str_run_mem _ _ _ ht1
    have hv1nil : v1 = [] := by
      cases v1 with
      | nil => rfl
      | cons x xs =>
        simp only [String.toList, List.cons_append, List.cons.injEq] at ht1
        have hx := hv1 x (by simp)
        rw [ht1.1] at hx
        exact absurd hx (by decide)
    subst hv1nil
    simp only [String.toList, List.nil_append, List.cons_append, List.cons.injEq, true_and] at ht1
    subst ht1
    obtain ⟨v2, hv2, he2⟩ := params_left a1 ';' _ s2 ha1 (by decide) hs2
    subst he2
    by_cases hv2nil : v2 = []
    · subst hv2nil
      rw [List.nil_append, base64_not_param p2 _ hp2] at hr
      simp at hr
    · rw [base64_not_class (fun x => isWord x || x == '=') (by decide) v2 _ hv2nil hv2] at hr
      simp at hr
  · -- the parameters are skipped
    simp only [List.mem_singleton] at hs2
    subst hs2
    by_cases hv1nil : v1 = []
    · subst hv1nil
      rw [List.nil_append, hZ, base64_not_param p1 _ hp1] at hr
      simp at hr
    · rw [base64_not_class isWord (by decide) v1 _ hv1nil hv1] at hr
      simp at hr

/-- With two parameters or more the pattern does not match. -/
theorem schemeRe_run_several (type subtype : Str) (q1 q2 : Str × Str)
    (ps : List (Str × Str)) (rest : Str)
    (ht : IsWordStr type) (hs : IsWordStr subtype)
    (h1 : IsWordStr q1.1 ∧ IsWordStr q1.2) (h2 : IsWordStr q2.1 ∧ IsWordStr q2.2) :
    schemeRe.run (specPrefixed type subtype (q1 :: q2 :: ps) rest) = [] := by
  have hshape : specPrefixed type subtype (q1 :: q2 :: ps) rest =
      "data:".toList ++ (type ++ '/' :: (subtype ++ ';' :: ((q1.1 ++ '=' :: q1.2) ++ ';' ::
        (q2.1 ++ '=' :: (q2.2 ++ (specParams ps ++ (";base64,".toList ++ rest))))))) := by
    simp [specPrefixed, specParams]
  rw [hshape]
  refine schemeRe_run_aux type subtype (q1.1 ++ '=' :: q1.2) q1.1
    (q1.2 ++ ';' :: (q2.1 ++ '=' :: (q2.2 ++ (specParams ps ++ (";base64,".toList ++ rest)))))
    q2.1 _ ht hs ?_ h1.1 h2.1 (by simp)
  intro x hx
  simp only [List.mem_append, List.mem_cons] at hx
  rcases hx with hx | hx | hx
  · exact eqWord_of_word x (h1.1.2 x hx)
  · simp [hx]
  · exact eqWord_of_word x (h1.2.2 x hx)

/-- With two parameters or more, a well-formed scheme prefix is not removed:
`excludeScheme` returns its argument. -/
theorem excludeScheme_keeps_several_parameters (type subtype : Str) (q1 q2 : Str × Str)
    (ps : List (Str × Str)) (rest : Str)
    (ht : IsWordStr type) (hs : IsWordStr subtype)
    (h1 : IsWordStr q1.1 ∧ IsWordStr q1.2) (h2 : IsWordStr q2.1 ∧ IsWordStr q2.2) :
    excludeScheme (specPrefixed type subtype (q1 :: q2 :: ps) rest)
      = specPrefixed type subtype (q1 :: q2 :: ps) rest := by
  rw [excludeScheme, FindStringIndex, schemeRe_run_several type subtype q1 q2 ps rest ht hs h1 h2]

/-! ## `dumpErrorImg` and the decode failure path -/

/-- C5, at the failing input: on the empty buffer, with the rows of 30 bytes and
the limit of 2 rows that `processWithXPath` passes, `dumpErrorImg` panics: in
row 1 the slice is `data[30:0]`, whose bounds are out of range. -/
theorem dumpErrorImg_panics_on_empty_buffer :
    dumpErrorImg [] 30 2 = none ∧ sliceBytes [] 30 0 = none := by
  decide

/-- C2, at the failing input: a node with valid base64 followed by a node with
the corrupted payload `"!!!!"`.  The file of the first node is written, none
for the second, and the run stops with a panic in `dumpErrorImg` instead of
returning. -/
theorem processWithXPath_panics_on_corrupted_node :
    DecodeString "!!!!".toList = ([], corruptInput) ∧
    processWithXPath (okEnv (fun _ => [item "aGVsbG8=" "a.bin", item "!!!!" "b.bin"]))
        "cat.xml".toList ".//item".toList "bin".toList "filename".toList emptyFS
      = .halt .panic ⟨["cat".toList], [("cat/a.bin".toList, bytesOf "hello")]⟩ := by
  decide

/-! ## Where `dumpErrorImg` panics -/

/-- With the arguments of `processWithXPath`, a buffer shorter than one row
makes `dumpErrorImg` panic. -/
theorem dumpErrorImg_short (data : List Nat) (h : data.length < 30) :
    dumpErrorImg data 30 2 = none := by
  have h2 : ¬ ((30 : Int) ≤ (data.length : Int)) := by omega
  have h3 : (60 : Int) > (data.length : Int) := by omega
  have h4 : (30 : Int) > (data.length : Int) := by omega
  simp [dumpErrorImg, dumpRows, sliceBytes, h2, h3, h4]

/-- With the arguments of `processWithXPath`, a buffer of at least one row is
dumped without a panic. -/
theorem dumpErrorImg_long (data : List Nat) (h : 30 ≤ data.length) :
    ∃ rows, dumpErrorImg data 30 2 = some rows := by
  have h2 : (30 : Int) ≤ (data.length : Int) := by omega
  have h5 : ¬ data.length < 30 := by omega
  by_cases h3 : (60 : Int) > (data.length : Int)
  · simp [dumpErrorImg, dumpRows, sliceBytes, h2, h3, h5]
  · have h4 : (60 : Int) ≤ (data.length : Int) := by omega
    simp [dumpErrorImg, dumpRows, sliceBytes, h2, h3, h4, h5]

/-- A node whose payload fails to decode with fewer than 30 bytes decoded
stops the run with a panic. -/
theorem processNode_panics_on_short_partial (env : Env) (F ia na : Str) (i : Nat)
    (n : Element) (fs fs1 : FS) (d : Str)
    (himg : n.SelectAttrValue ia [] ≠ [])
    (hct : createTargetDir env F fs = .ok d fs1)
    (herr : (DecodeString (excludeScheme (n.SelectAttrValue ia []))).2 ≠ none)
    (hlen : (DecodeString (excludeScheme (n.SelectAttrValue ia []))).1.length < 30) :
    processNode env F ia na i n fs = .halt .panic fs1 := by
  simp [processNode, himg, hct, herr, dumpErrorImg_short _ hlen]

/-- A node whose payload fails to decode with at least 30 bytes decoded is
skipped: no file is written, and the loop goes on. -/
theorem processNode_skips_on_long_partial (env : Env) (F ia na : Str) (i : Nat)
    (n : Element) (fs fs1 : FS) (d : Str)
    (himg : n.SelectAttrValue ia [] ≠ [])
    (hct : createTargetDir env F fs = .ok d fs1)
    (herr : (DecodeString (excludeScheme (n.SelectAttrValue ia []))).2 ≠ none)
    (hlen : 30 ≤ (DecodeString (excludeScheme (n.SelectAttrValue ia []))).1.length) :
    processNode env F ia na i n fs = .ok () fs1 := by
  obtain ⟨rows, hrows⟩ := dumpErrorImg_long _ hlen
  simp [processNode, himg, hct, herr, hrows]

/-! ## `main` and `listFilenames` -/

/-- C7 fails on the code: no input file is given, listing the working directory
fails, `listFilenames` returns the error, and `main` still returns normally. -/
theorem main_returns_after_failed_listing :
    (listFilenames (noListEnv (fun _ => [])) emptyFS).2 ≠ none ∧
    main (noListEnv (fun _ => [])) [] ".//img".toList "bin".toList "filename".toList emptyFS
      = .ok () emptyFS := by
  decide

/-- C7 as amended: when no input file is given and listing the working
directory fails, `listFilenames` returns the empty list with the error, `main`
drops the error, processes no file and returns normally, the file system
untouched. -/
theorem main_ignores_listing_error (env : Env) (xpath data filename : Str) (fs : FS)
    (h : (env.ReadDir fs).2 ≠ none) :
    (listFilenames env fs).1 = [] ∧ (listFilenames env fs).2 ≠ none ∧
    main env [] xpath data filename fs = .ok () fs := by
  cases hr : (env.ReadDir fs).2 with
  | none => exact absurd hr h
  | some err => simp [main, listFilenames, hr, processFiles]

/-- Witness of the amended C7 in the environment `noListEnv`. -/
theorem main_ignores_listing_error_witness :
    ((noListEnv (fun _ => [])).ReadDir emptyFS).2 ≠ none ∧
    ((listFilenames (noListEnv (fun _ => [])) emptyFS).1 = [] ∧
      (listFilenames (noListEnv (fun _ => [])) emptyFS).2 ≠ none ∧
      main (noListEnv (fun _ => [])) [] ".//img".toList "bin".toList "filename".toList emptyFS
        = .ok () emptyFS) :=
  ⟨by decide, main_ignores_listing_error _ _ _ _ _ (by decide)⟩

/-! ## The base64 decoder on encoded input -/

theorem decodeMap_encodeStd : ∀ v, v < 64 → decodeMap (encodeStd.getD v 'A') = some v := by
  decide

theorem decodeLoop_sextet (v : Nat) (hv : v < 64) (rest : Str) (j : Nat) (dbuf acc : List Nat) :
    decodeLoop (encodeStd.getD v 'A' :: rest) j dbuf acc =
      if j = 3 then decodeLoop rest 0 [] (acc ++ quantumBytes (dbuf ++ [v]) 4)
      else decodeLoop rest (j + 1) (dbuf ++ [v]) acc := by
  rw [decodeLoop, decodeMap_encodeStd v hv]

theorem decodeMap_pad : decodeMap '=' = none := by decide

/-- Decoding the encoding of `B` appends `B` to the output, without error. -/
theorem decodeLoop_encode (B : List Nat) (hB : ∀ b ∈ B, b < 256) (acc : List Nat) :
    decodeLoop (encode B) 0 [] acc = (acc ++ B, none) := by
  induction B using encode.induct generalizing acc with
  | case1 => simp [encode, decodeLoop]
  | case2 a =>
    have ha : a < 256 := hB a (by simp)
    rw [encode, decodeLoop_sextet _ (by omega), if_neg (by decide),
      decodeLoop_sextet _ (by omega), if_neg (by decide)]
    simp only [decodeLoop, decodeMap_pad, decodePadded, quantumBytes]
    simp [skipNewlines]
    omega
  | case3 a b =>
    have ha : a < 256 := hB a (by simp)
    have hb : b < 256 := hB b (by simp)
    rw [encode, decodeLoop_sextet _ (by omega), if_neg (by decide),
      decodeLoop_sextet _ (by omega), if_neg (by decide),
      decodeLoop_sextet _ (by omega), if_neg (by decide)]
    simp only [decodeLoop, decodeMap_pad, decodePadded, quantumBytes]
    simp [skipNewlines]
    omega
  | case4 a b c rest ih =>
    have ha : a < 256 := hB a (by simp)
    have hb : b < 256 := hB b (by simp)
    have hc : c < 256 := hB c (by simp)
    rw [encode, decodeLoop_sextet _ (by omega), if_neg (by decide),
      decodeLoop_sextet _ (by omega), if_neg (by decide),
      decodeLoop_sextet _ (by omega), if_neg (by decide),
      decodeLoop_sextet _ (by omega), if_pos rfl,
      ih (fun x hx => hB x (by simp [hx]))]
    simp [quantumBytes]
    omega

/-- Round trip: `DecodeString` returns the bytes that were encoded, and no error. -/
theorem DecodeString_encode (B : List Nat) (hB : ∀ b ∈ B, b < 256) :
    DecodeString (encode B) = (B, none) := by
  simpa [DecodeString] using decodeLoop_encode B hB []

/-! ## One round of the loop of `processWithXPath` -/

theorem FS.put_put (fs : FS) (p : Str) (d1 d2 : List Nat) :
    (fs.put p d1).put p d2 = fs.put p d2 := by
  simp [FS.put, List.filter_filter]

/-- The loop over `pre ++ more` is the loop over `pre`, then, unless the run
has stopped, the loop over `more` with the indices that follow. -/
theorem processNodes_append (env : Env) (F ia na : Str) (pre more : List Element)
    (i : Nat) (fs : FS) :
    processNodes env F ia na i (pre ++ more) fs =
      match processNodes env F ia na i pre fs with
      | .ok _ fs1 => processNodes env F ia na (i + pre.length) more fs1
      | .halt h fs1 => .halt h fs1 := by
  induction pre generalizing i fs with
  | nil => simp [processNodes]
  | cons n pre ih =>
    have hi : i + 1 + pre.length = i + (pre.length + 1) := by omega
    simp only [List.cons_append, processNodes, List.length_cons]
    cases processNode env F ia na i n fs with
    | halt h fs1 => rfl
    | ok u fs1 => exact (ih (i + 1) fs1).trans (by rw [hi])

theorem createTargetDir_ok (env : Env) (F : Str) (fs : FS) (dir : Str)
    (hdir : extractBaseName F = some dir) (hmk : dir ∉ fs.dirs → env.Mkdir fs dir = none) :
    createTargetDir env F fs = .ok dir (fs.withDir dir) := by
  by_cases h : dir ∈ fs.dirs
  · simp [createTargetDir, hdir, dirExists, FS.withDir, h]
  · simp [createTargetDir, hdir, dirExists, FS.withDir, h, hmk h]

theorem writeImage_ok (env : Env) (path : Str) (B : List Nat) (fs : FS)
    (hc : env.Create fs path = none)
    (hw : env.write (fs.put path []) path B = (B.length, none)) :
    writeImage env path B fs = (none, fs.put path B) := by
  simp [writeImage, File_Write, hc, hw, FS.put_put]

/-- A node with a payload that decodes to `B`, when the directory and the
file can be written: `B` is written under the name of the node. -/
theorem processNode_written (env : Env) (F ia na : Str) (i : Nat) (n : Element)
    (fs : FS) (dir : Str) (B : List Nat)
    (himg : n.SelectAttrValue ia [] ≠ [])
    (hdec : DecodeString (excludeScheme (n.SelectAttrValue ia [])) = (B, none))
    (hdir : extractBaseName F = some dir)
    (hmk : dir ∉ fs.dirs → env.Mkdir fs dir = none)
    (hc : env.Create (fs.withDir dir)
      (dir ++ '/' :: n.SelectAttrValue na (Sprintf_img_04d i)) = none)
    (hw : env.write ((fs.withDir dir).put
        (dir ++ '/' :: n.SelectAttrValue na (Sprintf_img_04d i)) [])
      (dir ++ '/' :: n.SelectAttrValue na (Sprintf_img_04d i)) B = (B.length, none)) :
    processNode env F ia na i n fs =
      .ok () ((fs.withDir dir).put (dir ++ '/' :: n.SelectAttrValue na (Sprintf_img_04d i)) B) := by
  rw [processNode]
  simp only [himg, if_false, createTargetDir_ok env F fs dir hdir hmk, hdec,
    writeImage_ok env _ B _ hc hw, ne_eq, not_true_eq_false]

/-! ## `writeImage` and short writes -/

/-- The contract of `(*os.File).Write`: a count different from `len(b)` comes
with an error. -/
theorem File_Write_contract (env : Env) (fs : FS) (path : Str) (b : List Nat)
    (h : (File_Write env fs path b).1 ≠ b.length) : (File_Write env fs path b).2 ≠ none := by
  have hn : (env.write fs path b).1 ≠ b.length := h
  cases he : (env.write fs path b).2 with
  | none => simp [File_Write, he, hn, ErrShortWrite]
  | some e => simp [File_Write, he]

theorem writeImage_short (env : Env) (filepath : Str) (data : List Nat) (fs : FS)
    (hc : env.Create fs filepath = none)
    (hshort : (env.write (fs.put filepath []) filepath data).1 ≠ data.length) :
    ∃ err, writeImage env filepath data fs =
      (some err, fs.put filepath (data.take (env.write (fs.put filepath []) filepath data).1)) := by
  have h1 : (File_Write env (fs.put filepath []) filepath data).1 ≠ data.length := hshort
  have h2 := File_Write_contract env _ filepath data h1
  cases he : (File_Write env (fs.put filepath []) filepath data).2 with
  | none => exact absurd he h2
  | some err =>
    refine ⟨err, ?_⟩
    have h3 : (File_Write env (fs.put filepath []) filepath data).1
        = (env.write (fs.put filepath []) filepath data).1 := rfl
    simp [writeImage, hc, he, h3, FS.put_put]

/-- C6: whenever the write under `fo.Write(data)` reports a number of bytes
different from `len(data)`, with or without an error of its own, `writeImage`
returns a non-nil error (first part, for every path, buffer and file system);
and when this happens at a matched node `n` that the run has reached,
`processWithXPath` stops the run with `log.Fatal`: the nodes after `n` are not
processed (second part). -/
theorem writeImage_short_write_is_fatal (env : Env) (F xp ia na : Str) (fs fs1 : FS)
    (doc : Str → List Element) (pre rest : List Element) (n : Element)
    (data : List Nat) (dir : Str)
    (hdir : extractBaseName F = some dir)
    (hdoc : env.ReadFromFile F = some doc) (hm : doc xp = pre ++ n :: rest)
    (hpre : processNodes env F ia na 0 pre fs = .ok () fs1)
    (himg : n.SelectAttrValue ia [] ≠ [])
    (hdec : DecodeString (excludeScheme (n.SelectAttrValue ia [])) = (data, none))
    (hmk : dir ∉ fs1.dirs → env.Mkdir fs1 dir = none)
    (hc : env.Create (fs1.withDir dir)
      (dir ++ '/' :: n.SelectAttrValue na (Sprintf_img_04d pre.length)) = none)
    (hshort : (env.write ((fs1.withDir dir).put
        (dir ++ '/' :: n.SelectAttrValue na (Sprintf_img_04d pre.length)) [])
      (dir ++ '/' :: n.SelectAttrValue na (Sprintf_img_04d pre.length)) data).1 ≠ data.length) :
    (∀ (filepath : Str) (buf : List Nat) (fs0 : FS), env.Create fs0 filepath = none →
      (env.write (fs0.put filepath []) filepath buf).1 ≠ buf.length →
      (writeImage env filepath buf fs0).1 ≠ none) ∧
    processWithXPath env F xp ia na fs = .halt .fatal
      ((fs1.withDir dir).put (dir ++ '/' :: n.SelectAttrValue na (Sprintf_img_04d pre.length))
        (data.take (env.write ((fs1.withDir dir).put
          (dir ++ '/' :: n.SelectAttrValue na (Sprintf_img_04d pre.length)) [])
          (dir ++ '/' :: n.SelectAttrValue na (Sprintf_img_04d pre.length)) data).1)) := by
  constructor
  · intro filepath buf fs0 hc0 hs0
    obtain ⟨err, he⟩ := writeImage_short env filepath buf fs0 hc0 hs0
    rw [he]
    simp
  · obtain ⟨err, he⟩ := writeImage_short env _ data (fs1.withDir dir) hc hshort
    rw [processWithXPath, hdoc]
    simp only [hm]
    rw [processNodes_append, hpre]
    simp only [Nat.zero_add]
    rw [processNodes, processNode]
    simp only [himg, if_false, createTargetDir_ok env F fs1 dir hdir hmk, hdec, he, ne_eq,
      not_true_eq_false]

/-- Witness of C6: the write of the five bytes of `hello` stops after three
bytes without an error of its own; `writeImage` returns `io.ErrShortWrite`, the
run is stopped by `log.Fatal`, and the second node is not processed. -/
theorem writeImage_short_write_is_fatal_witness :
    (writeImage (shortWriteEnv (fun _ => [])) "cat/hello.bin".toList (bytesOf "hello")
        ⟨["cat".toList], []⟩).1 ≠ none ∧
    processWithXPath
        (shortWriteEnv (fun _ => [item "aGVsbG8=" "hello.bin", item "aGk=" "b.bin"]))
        "cat.xml".toList ".//item".toList "bin".toList "filename".toList emptyFS
      = .halt .fatal ⟨["cat".toList], [("cat/hello.bin".toList, bytesOf "hel")]⟩ :=
  have h := writeImage_short_write_is_fatal
    (shortWriteEnv (fun _ => [item "aGVsbG8=" "hello.bin", item "aGk=" "b.bin"]))
    "cat.xml".toList ".//item".toList "bin".toList "filename".toList emptyFS emptyFS
    (fun _ => [item "aGVsbG8=" "hello.bin", item "aGk=" "b.bin"]) []
    [item "aGk=" "b.bin"] (item "aGVsbG8=" "hello.bin") (bytesOf "hello") "cat".toList
    (by decide) rfl rfl rfl (by decide) (by decide) (fun _ => rfl) rfl (by decide)
  ⟨by decide, h.2.trans (by decide)⟩

/-! ## A node that decodes -/

/-- A node that the run reaches, with a payload that decodes to `B`, when the
directory and the file can be written: `B` is written to the directory of the
input file under the name of the node, and the loop goes on with the nodes
after it. -/
theorem processWithXPath_node_written (env : Env) (F xp ia na : Str) (fs fs1 : FS)
    (doc : Str → List Element) (pre rest : List Element) (n : Element)
    (B : List Nat) (dir : Str)
    (hdir : extractBaseName F = some dir)
    (hdoc : env.ReadFromFile F = some doc) (hm : doc xp = pre ++ n :: rest)
    (hpre : processNodes env F ia na 0 pre fs = .ok () fs1)
    (himg : n.SelectAttrValue ia [] ≠ [])
    (hdec : DecodeString (excludeScheme (n.SelectAttrValue ia [])) = (B, none))
    (hmk : dir ∉ fs1.dirs → env.Mkdir fs1 dir = none)
    (hc : env.Create (fs1.withDir dir)
      (dir ++ '/' :: n.SelectAttrValue na (Sprintf_img_04d pre.length)) = none)
    (hw : env.write ((fs1.withDir dir).put
        (dir ++ '/' :: n.SelectAttrValue na (Sprintf_img_04d pre.length)) [])
      (dir ++ '/' :: n.SelectAttrValue na (Sprintf_img_04d pre.length)) B = (B.length, none)) :
    processWithXPath env F xp ia na fs =
      processNodes env F ia na (pre.length + 1) rest
        ((fs1.withDir dir).put
          (dir ++ '/' :: n.SelectAttrValue na (Sprintf_img_04d pre.length)) B) := by
  rw [processWithXPath, hdoc]
  simp only [hm]
  rw [processNodes_append, hpre]
  simp only [Nat.zero_add]
  rw [processNodes, processNode_written env F ia na pre.length n fs1 dir B himg hdec hdir hmk
    hc hw]

/-- A node that the run reaches, whose payload is left by `excludeScheme` as the
padded standard base64 encoding of `B` and whose name attribute has the value
`N`: `B` is written to `extractBaseName(F) + "/" + N`. -/
theorem processWithXPath_writes_when_reached (env : Env) (F xp ia na : Str) (fs fs1 : FS)
    (doc : Str → List Element) (pre rest : List Element) (n : Element)
    (B : List Nat) (N dir : Str)
    (hdir : extractBaseName F = some dir)
    (hdoc : env.ReadFromFile F = some doc) (hm : doc xp = pre ++ n :: rest)
    (hpre : processNodes env F ia na 0 pre fs = .ok () fs1)
    (himg : n.SelectAttrValue ia [] ≠ [])
    (hB : ∀ b ∈ B, b < 256)
    (henc : excludeScheme (n.SelectAttrValue ia []) = encode B)
    (hN : ∀ d, n.SelectAttrValue na d = N)
    (hmk : dir ∉ fs1.dirs → env.Mkdir fs1 dir = none)
    (hc : env.Create (fs1.withDir dir) (dir ++ '/' :: N) = none)
    (hw : env.write ((fs1.withDir dir).put (dir ++ '/' :: N) []) (dir ++ '/' :: N) B
      = (B.length, none)) :
    processWithXPath env F xp ia na fs =
      processNodes env F ia na (pre.length + 1) rest
        ((fs1.withDir dir).put (dir ++ '/' :: N) B) := by
  have hdec : DecodeString (excludeScheme (n.SelectAttrValue ia [])) = (B, none) := by
    rw [henc, DecodeString_encode B hB]
  have hname : n.SelectAttrValue na (Sprintf_img_04d pre.length) = N := hN _
  rw [processWithXPath_node_written env F xp ia na fs fs1 doc pre rest n B dir hdir hdoc hm
    hpre himg hdec hmk (by rw [hname]; exact hc) (by rw [hname]; exact hw), hname]

/-- The example of the specification: `cat.xml` with the one node
`<item bin="aGVsbG8=" filename="hello.bin"/>` yields `cat/hello.bin` with the
bytes of `hello`. -/
theorem processWithXPath_cat_example :
    processWithXPath (okEnv (fun _ => [item "aGVsbG8=" "hello.bin"]))
        "cat.xml".toList ".//item".toList "bin".toList "filename".toList emptyFS
      = .ok () ⟨["cat".toList], [("cat/hello.bin".toList, bytesOf "hello")]⟩ := by
  decide

/-- C1, at two failing inputs, in an environment where every directory creation
and every write succeeds.  First: the node
`<item bin="aGVsbG8=" filename="hello.bin"/>` of `cat.xml` meets every condition
of the claim (`aGVsbG8=` is the padded base64 encoding of `hello`, and has no
scheme prefix to remove), but it follows a node with the corrupted payload
`!!!!`: the run panics in `dumpErrorImg` at that node and `cat/hello.bin` is
never written.  Second: the payload is the encoding of `hello` after the
well-formed prefix `data:image/png;a=b;c=d;base64,`: `excludeScheme` leaves the
prefix in place, decoding fails, and nothing is written. -/
theorem processWithXPath_misses_valid_node :
    ('.' ∈ Base "cat.xml".toList ∧
      (item "aGVsbG8=" "hello.bin").SelectAttrValue "bin".toList [] = encode (bytesOf "hello") ∧
      excludeScheme (encode (bytesOf "hello")) = encode (bytesOf "hello") ∧
      (∀ d, (item "aGVsbG8=" "hello.bin").SelectAttrValue "filename".toList d
        = "hello.bin".toList) ∧
      processWithXPath (okEnv (fun _ => [item "!!!!" "b.bin", item "aGVsbG8=" "hello.bin"]))
          "cat.xml".toList ".//item".toList "bin".toList "filename".toList emptyFS
        = .halt .panic ⟨["cat".toList], []⟩) ∧
    ((item "data:image/png;a=b;c=d;base64,aGVsbG8=" "hello.bin").SelectAttrValue "bin".toList []
        = specPrefixed "image".toList "png".toList
            [("a".toList, "b".toList), ("c".toList, "d".toList)] (encode (bytesOf "hello")) ∧
      (DecodeString (excludeScheme
        "data:image/png;a=b;c=d;base64,aGVsbG8=".toList)).2 ≠ none ∧
      processWithXPath
          (okEnv (fun _ => [item "data:image/png;a=b;c=d;base64,aGVsbG8=" "hello.bin"]))
          "cat.xml".toList ".//item".toList "bin".toList "filename".toList emptyFS
        = .halt .panic ⟨["cat".toList], []⟩) :=
  ⟨⟨by decide, by decide, by decide, fun _ => rfl, by decide⟩, by decide, by decide, by decide⟩

/-! ## The name of the output file -/

theorem SelectAttrValue_of_none (n : Element) (key dflt : Str)
    (h : n.SelectAttr key = none) : n.SelectAttrValue key dflt = dflt := by
  rw [Element.SelectAttr] at h
  simp [Element.SelectAttrValue, h]

theorem SelectAttrValue_of_some (n : Element) (key dflt : Str) (a : Attr)
    (h : n.SelectAttr key = some a) : n.SelectAttrValue key dflt = a.Value := by
  rw [Element.SelectAttr] at h
  simp [Element.SelectAttrValue, h]

/-- The lookup of `etree` by an unprefixed key finds an attribute written with
a namespace prefix: for `<item bin="aGk=" x:filename="foo.bin"/>` and the name
attribute `filename` the file written is `cat/foo.bin`. -/
theorem SelectAttrValue_any_prefix :
    (Element.mk "item".toList [⟨[], "bin".toList, "aGk=".toList⟩,
        ⟨"x".toList, "filename".toList, "foo.bin".toList⟩]).SelectAttrValue
        "filename".toList "img_0000".toList = "foo.bin".toList ∧
    (Element.mk "item".toList [⟨[], "bin".toList, "aGk=".toList⟩,
        ⟨"x".toList, "filename".toList, "foo.bin".toList⟩]).SelectAttrValue
        "y:filename".toList "img_0000".toList = "img_0000".toList ∧
    processWithXPath
        (okEnv (fun _ => [Element.mk "item".toList [⟨[], "bin".toList, "aGk=".toList⟩,
          ⟨"x".toList, "filename".toList, "foo.bin".toList⟩]]))
        "cat.xml".toList ".//item".toList "bin".toList "filename".toList emptyFS
      = .ok () ⟨["cat".toList], [("cat/foo.bin".toList, bytesOf "hi")]⟩ := by
  decide

/-- C10: the matched nodes are `pre ++ n :: rest`, so that `n` has the
zero-based index `pre.length` among all matched nodes, skipped ones included;
the run gets through the nodes before `n`; `n` has a non-empty data attribute
that decodes to `B`; the directory and the file can be written.  If `n` has
no name attribute (the lookup `SelectAttr` of `etree` finds none), the file
written is `img_` followed by the index in decimal, padded with zeros to four
digits; if it has one, the file written is named by the value of the
attribute. -/
theorem processWithXPath_output_name (env : Env) (F xp ia na : Str) (fs fs1 : FS)
    (doc : Str → List Element) (pre rest : List Element) (n : Element)
    (B : List Nat) (name dir : Str)
    (hdir : extractBaseName F = some dir)
    (hdoc : env.ReadFromFile F = some doc) (hm : doc xp = pre ++ n :: rest)
    (hpre : processNodes env F ia na 0 pre fs = .ok () fs1)
    (himg : n.SelectAttrValue ia [] ≠ [])
    (hdec : DecodeString (excludeScheme (n.SelectAttrValue ia [])) = (B, none))
    (hname : (n.SelectAttr na = none ∧
        name = "img_".toList ++ (List.replicate (4 - (Nat.repr pre.length).length) '0' ++
          (Nat.repr pre.length).toList)) ∨
      (∃ a, n.SelectAttr na = some a ∧ a.Value = name))
    (hmk : dir ∉ fs1.dirs → env.Mkdir fs1 dir = none)
    (hc : env.Create (fs1.withDir dir) (dir ++ '/' :: name) = none)
    (hw : env.write ((fs1.withDir dir).put (dir ++ '/' :: name) []) (dir ++ '/' :: name) B
      = (B.length, none)) :
    processWithXPath env F xp ia na fs =
      processNodes env F ia na (pre.length + 1) rest
        ((fs1.withDir dir).put (dir ++ '/' :: name) B) := by
  have hn : n.SelectAttrValue na (Sprintf_img_04d pre.length) = name := by
    rcases hname with ⟨habs, hnm⟩ | ⟨a, ha, hnm⟩
    · rw [SelectAttrValue_of_none n na _ habs, hnm]
      rfl
    · rw [SelectAttrValue_of_some n na _ a ha, hnm]
  rw [processWithXPath_node_written env F xp ia na fs fs1 doc pre rest n B dir hdir hdoc hm
    hpre himg hdec hmk (by rw [hn]; exact hc) (by rw [hn]; exact hw), hn]

/-- Witness of C10: three matched nodes of which only the second has a name;
the files written are `img_0000`, `x.bin` and `img_0002`. -/
theorem processWithXPath_output_name_witness :
    processWithXPath
        (okEnv (fun _ => [itemNoName "aGVsbG8=", item "aGk=" "x.bin", itemNoName "aGV5"]))
        "cat.xml".toList ".//item".toList "bin".toList "filename".toList emptyFS
      = .ok () ⟨["cat".toList], [("cat/img_0002".toList, bytesOf "hey"),
          ("cat/x.bin".toList, bytesOf "hi"), ("cat/img_0000".toList, bytesOf "hello")]⟩ :=
  (processWithXPath_output_name
    (okEnv (fun _ => [itemNoName "aGVsbG8=", item "aGk=" "x.bin", itemNoName "aGV5"]))
    "cat.xml".toList ".//item".toList "bin".toList "filename".toList emptyFS
    ⟨["cat".toList], [("cat/x.bin".toList, bytesOf "hi"), ("cat/img_0000".toList, bytesOf "hello")]⟩
    (fun _ => [itemNoName "aGVsbG8=", item "aGk=" "x.bin", itemNoName "aGV5"])
    [itemNoName "aGVsbG8=", item "aGk=" "x.bin"] [] (itemNoName "aGV5")
    (bytesOf "hey") "img_0002".toList "cat".toList
    (by decide) rfl rfl (by decide) (by decide) (by decide)
    (Or.inl ⟨by decide, by decide⟩) (fun _ => rfl) rfl rfl).trans (by decide)

/-! ## The number of files written -/

theorem inDir_child (dir nm : Str) (h : '/' ∉ nm) : inDir dir (dir ++ '/' :: nm) = true := by
  have h1 : (dir ++ ['/']).isPrefixOf (dir ++ '/' :: nm) = true := by
    rw [List.isPrefixOf_iff_prefix]
    exact ⟨nm, by simp⟩
  have h2 : (dir ++ '/' :: nm).drop (dir.length + 1) = nm := by
    rw [show dir ++ '/' :: nm = (dir ++ ['/']) ++ nm by simp]
    exact List.drop_left' (by simp)
  simp [inDir, h1, h2, h]

theorem createTargetDir_files (env : Env) (F : Str) (fs fs1 : FS) (dir d : Str)
    (hdir : extractBaseName F = some dir) (h : createTargetDir env F fs = .ok d fs1) :
    d = dir ∧ fs1.files = fs.files := by
  simp only [createTargetDir, hdir] at h
  split at h
  · split at h
    · cases h
    · cases h; exact ⟨rfl, rfl⟩
  · cases h; exact ⟨rfl, rfl⟩

theorem writeImage_files (env : Env) (p : Str) (data : List Nat) (fs fs2 : FS)
    (h : writeImage env p data fs = (none, fs2)) :
    fs2.files.map Prod.fst = p :: (fs.files.map Prod.fst).filter (fun q => q ≠ p) := by
  simp only [writeImage] at h
  split at h
  · cases h
  · have hf : ∀ d : List Nat, (((fs.put p []).put p d).files.map Prod.fst)
        = p :: (fs.files.map Prod.fst).filter (fun q => q ≠ p) := by
      intro d
      simp [FS.put, List.filter_filter, List.filter_map, Function.comp_def]
    split at h
    · rw [← (Prod.mk.inj h).2]; exact hf _
    · rw [← (Prod.mk.inj h).2]; exact hf _

/-- The loop adds one file to the directory for every node that decodes, when
the names of these nodes are new, distinct, and without a slash. -/
theorem processNodes_count (env : Env) (F ia na dir : Str)
    (hdir : extractBaseName F = some dir) (ns : List Element) :
    ∀ (i : Nat) (fs fs' : FS),
      processNodes env F ia na i ns fs = .ok () fs' →
      (decodedNames ia na i ns).Nodup →
      (∀ nm ∈ decodedNames ia na i ns,
        '/' ∉ nm ∧ (dir ++ '/' :: nm) ∉ fs.files.map Prod.fst) →
      (filesIn dir fs').length = (filesIn dir fs).length + (ns.filter (decodes ia)).length := by
  induction ns with
  | nil =>
    intro i fs fs' h _ _
    simp only [processNodes] at h
    cases h
    simp
  | cons n rest ih =>
    intro i fs fs' h hnd hnew
    simp only [processNodes] at h
    cases hb : processNode env F ia na i n fs with
    | halt hh fs1 => rw [hb] at h; cases h
    | ok u fs1 =>
      rw [hb] at h
      simp only at h
      by_cases hdc : decodes ia n = true
      · -- the node decodes: its file is written
        have himg : n.SelectAttrValue ia [] ≠ [] := by
          simp only [decodes, Bool.and_eq_true, decide_eq_true_eq] at hdc; exact hdc.1
        have herr : (DecodeString (excludeScheme (n.SelectAttrValue ia []))).2 = none := by
          simp only [decodes, Bool.and_eq_true, decide_eq_true_eq] at hdc; exact hdc.2
        simp only [decodedNames, hdc, if_true] at hnd hnew
        have hnm := hnew (n.SelectAttrValue na (Sprintf_img_04d i)) (by simp)
        simp only [processNode, himg, if_false, herr, ne_eq, not_true_eq_false] at hb
        cases hct : createTargetDir env F fs with
        | halt hh fs0 => rw [hct] at hb; cases hb
        | ok d fs0 =>
          rw [hct] at hb
          obtain ⟨hd, hfiles⟩ := createTargetDir_files env F fs fs0 dir d hdir hct
          subst hd
          simp only at hb
          cases hwi : writeImage env (d ++ '/' :: n.SelectAttrValue na (Sprintf_img_04d i))
              (DecodeString (excludeScheme (n.SelectAttrValue ia []))).1 fs0 with
          | mk e fs2 =>
            rw [hwi] at hb
            cases e with
            | some e => cases hb
            | none =>
              simp only [Step.ok.injEq, true_and] at hb
              subst hb
              have hkeys := writeImage_files env _ _ fs0 fs2 hwi
              rw [hfiles] at hkeys
              have hfilt : (fs.files.map Prod.fst).filter
                  (fun q => q ≠ d ++ '/' :: n.SelectAttrValue na (Sprintf_img_04d i))
                  = fs.files.map Prod.fst := by
                rw [List.filter_eq_self]
                intro q hq
                simp only [ne_eq, decide_eq_true_eq]
                intro hqe
                exact hnm.2 (hqe ▸ hq)
              rw [hfilt] at hkeys
              have hcount : (filesIn d fs2).length = (filesIn d fs).length + 1 := by
                simp [filesIn, hkeys, List.filter_cons, inDir_child d _ hnm.1]
              have := ih (i + 1) fs2 fs' h (List.nodup_cons.mp hnd).2 (by
                intro nm hmem
                refine ⟨(hnew nm (by simp [hmem])).1, ?_⟩
                rw [hkeys]
                simp only [List.mem_cons, not_or]
                refine ⟨?_, (hnew nm (by simp [hmem])).2⟩
                intro heq
                have : nm = n.SelectAttrValue na (Sprintf_img_04d i) := by
                  simpa using heq
                exact (List.nodup_cons.mp hnd).1 (this ▸ hmem))
              rw [this, hcount, List.filter_cons, if_pos hdc, List.length_cons]
              omega
      · -- the node is skipped or fails to decode: no file is written
        have hdc' : decodes ia n = false := by simpa using hdc
        simp only [decodedNames, hdc', Bool.false_eq_true, if_false] at hnd hnew
        have hfs : fs1.files = fs.files := by
          simp only [processNode] at hb
          split at hb
          · cases hb; rfl
          · rename_i himg
            have herr : (DecodeString (excludeScheme (n.SelectAttrValue ia []))).2 ≠ none := by
              intro he
              simp [decodes, himg, he] at hdc'
            cases hct : createTargetDir env F fs with
            | halt hh fs0 => rw [hct] at hb; cases hb
            | ok d fs0 =>
              rw [hct] at hb
              obtain ⟨-, hfiles⟩ := createTargetDir_files env F fs fs0 dir d hdir hct
              simp only [herr, ne_eq, not_false_eq_true, if_true] at hb
              split at hb
              · cases hb
              · cases hb; exact hfiles
        have := ih (i + 1) fs1 fs' h hnd (by rw [hfs]; exact hnew)
        rw [this, List.filter_cons, if_neg hdc]
        simp [filesIn, hfs]

/-- C8 fails on the code.  Two nodes that decode and carry the same name
`a.bin` leave one file in the directory, not two: the second write replaces the
first.  A node that decodes and is named `../x.bin` leaves no file in the
directory: its file is written next to it. -/
theorem processWithXPath_file_count_counterexample :
    (processWithXPath (okEnv (fun _ => [item "aGVsbG8=" "a.bin", item "aGk=" "a.bin"]))
        "cat.xml".toList ".//item".toList "bin".toList "filename".toList emptyFS
      = .ok () ⟨["cat".toList], [("cat/a.bin".toList, bytesOf "hi")]⟩ ∧
      (filesIn "cat".toList ⟨["cat".toList], [("cat/a.bin".toList, bytesOf "hi")]⟩).length = 1 ∧
      ([item "aGVsbG8=" "a.bin", item "aGk=" "a.bin"].filter (decodes "bin".toList)).length = 2) ∧
    (processWithXPath (okEnv (fun _ => [item "aGk=" "../x.bin"]))
        "cat.xml".toList ".//item".toList "bin".toList "filename".toList emptyFS
      = .ok () ⟨["cat".toList], [("cat/../x.bin".toList, bytesOf "hi")]⟩ ∧
      (filesIn "cat".toList ⟨["cat".toList], [("cat/../x.bin".toList, bytesOf "hi")]⟩).length = 0 ∧
      ([item "aGk=" "../x.bin"].filter (decodes "bin".toList)).length = 1) := by
  decide

/-- C8 as amended: the output directory holds no file at the start; the nodes
that decode have output names that are pairwise distinct and contain no slash;
the run of `processWithXPath` returns normally.  Then the number of files in
the output directory is the number of matched nodes with a non-empty payload
that decodes: one file for each of them, none for the others. -/
theorem processWithXPath_file_count (env : Env) (F xp ia na dir : Str) (fs fs' : FS)
    (doc : Str → List Element)
    (hdir : extractBaseName F = some dir)
    (hdoc : env.ReadFromFile F = some doc)
    (hempty : ∀ p ∈ fs.files.map Prod.fst, inDir dir p = false)
    (hnd : (decodedNames ia na 0 (doc xp)).Nodup)
    (hsl : ∀ nm ∈ decodedNames ia na 0 (doc xp), '/' ∉ nm)
    (hok : processWithXPath env F xp ia na fs = .ok () fs') :
    (filesIn dir fs').length = ((doc xp).filter (decodes ia)).length := by
  rw [processWithXPath, hdoc] at hok
  have h0 : filesIn dir fs = [] := by
    rw [filesIn, List.filter_eq_nil_iff]
    intro p hp
    simp [hempty p hp]
  have := processNodes_count env F ia na dir hdir (doc xp) 0 fs fs' hok hnd (by
    intro nm hmem
    refine ⟨hsl nm hmem, ?_⟩
    intro hin
    have h1 := hempty _ hin
    rw [inDir_child dir nm (hsl nm hmem)] at h1
    cases h1)
  rw [this, h0]
  simp

/-- Witness of the amended C8: a node that decodes, a node without payload, a
node whose payload is corrupted after thirty decoded bytes, and another node
that decodes; two files are in the directory at the end. -/
theorem processWithXPath_file_count_witness :
    (filesIn "cat".toList
      ⟨["cat".toList], [("cat/b.bin".toList, bytesOf "hi"),
        ("cat/a.bin".toList, bytesOf "hello")]⟩).length
      = ([item "aGVsbG8=" "a.bin", item "" "s.bin",
          item "AAAAAAAAAAAAAAAAAAAAAAAAAAAAAAAAAAAAAAAA!" "c.bin",
          item "aGk=" "b.bin"].filter (decodes "bin".toList)).length :=
  processWithXPath_file_count
    (okEnv (fun _ => [item "aGVsbG8=" "a.bin", item "" "s.bin",
      item "AAAAAAAAAAAAAAAAAAAAAAAAAAAAAAAAAAAAAAAA!" "c.bin", item "aGk=" "b.bin"]))
    "cat.xml".toList ".//item".toList "bin".toList "filename".toList "cat".toList emptyFS
    ⟨["cat".toList], [("cat/b.bin".toList, bytesOf "hi"),
      ("cat/a.bin".toList, bytesOf "hello")]⟩
    (fun _ => [item "aGVsbG8=" "a.bin", item "" "s.bin",
      item "AAAAAAAAAAAAAAAAAAAAAAAAAAAAAAAAAAAAAAAA!" "c.bin", item "aGk=" "b.bin"])
    (by decide) rfl (by decide) (by decide) (by decide) (by decide)

end XmlImageDmp
